import Mathlib

/-!
# Verification of the directed-graph library (`student_code.py`)

Shallow embedding of `VersatileDigraph`, `SortableDigraph.top_sort`,
`TraversableDigraph.dfs` / `.bfs`, and `DAG.add_edge` / `DAG._has_path_dfs`.

Python dictionaries preserve insertion order, so each `dict` is embedded as an
association list: assigning to an existing key updates the value in place,
assigning to a fresh key appends at the end.  Python lists used as stacks
(`append` / `pop()`) are embedded as Lean lists whose *head* is the stack top,
so a Python `append`-in-iteration-order becomes a Lean prepend of the
*reversed* filtered list, and the Python idiom `list(xs)[::-1]` followed by
`pop()`-from-the-end becomes the plain Lean list `xs`.  Python `while` loops
are embedded with an explicit fuel argument; the fuel bounds proved below show
the chosen fuel is never exhausted, so the embedded functions compute exactly
what the Python loops compute.
-/

set_option linter.unusedSectionVars false

namespace StudentCode

variable {K : Type} [DecidableEq K]

/-- Ordered-dictionary insert: update in place if the key is present,
otherwise append at the end (Python `d[k] = v`). -/
def dictInsert {B : Type} (d : List (K × B)) (k : K) (v : B) : List (K × B) :=
  match d with
  | [] => [(k, v)]
  | p :: rest => if p.1 = k then (k, v) :: rest else p :: dictInsert rest k v

/-- Ordered-dictionary lookup (Python `d.get(k)` / `d[k]`). -/
def dictGet? {B : Type} (d : List (K × B)) (k : K) : Option B :=
  match d with
  | [] => none
  | p :: rest => if p.1 = k then some p.2 else dictGet? rest k

/-- Lookup with default (Python `d.get(k, v₀)`). -/
def dictGetD {B : Type} (d : List (K × B)) (k : K) (v₀ : B) : B :=
  (dictGet? d k).getD v₀

/-- The key list of a dictionary, in insertion order (Python `d.keys()`). -/
def dictKeys {B : Type} (d : List (K × B)) : List K :=
  d.map Prod.fst

/-- In-place modification of the value at a key (Python `d[k].append(...)`
style mutation; the callers below only use it when the key is present). -/
def dictModify {B : Type} (d : List (K × B)) (k : K) (f : B → B) : List (K × B) :=
  match d with
  | [] => []
  | p :: rest => if p.1 = k then (p.1, f p.2) :: rest else p :: dictModify rest k f

/-- Metadata stored for one edge (`{'weight': ..., 'name': ...}`). -/
structure EdgeData where
  weight : Int
  name : String
  deriving DecidableEq, Repr

/-- State of a `VersatileDigraph`: `nodes` maps node id to node value,
`edges` maps an ordered pair to its metadata, `adjacency` maps a node id to
its ordered list of `(destination, edge name)` pairs. -/
structure VersatileDigraph (K : Type) where
  nodes : List (K × Int)
  edges : List ((K × K) × EdgeData)
  adjacency : List (K × List (K × String))
  deriving DecidableEq, Repr

/-- The empty graph (`VersatileDigraph.__init__`). -/
def emptyGraph : VersatileDigraph K := ⟨[], [], []⟩

namespace VersatileDigraph

/-- `VersatileDigraph.add_node`. -/
def add_node (g : VersatileDigraph K) (node_id : K) (node_value : Int) :
    VersatileDigraph K :=
  { nodes := dictInsert g.nodes node_id node_value
    edges := g.edges
    adjacency :=
      if node_id ∈ dictKeys g.adjacency then g.adjacency
      else g.adjacency ++ [(node_id, [])] }

/-- `VersatileDigraph.add_edge`. -/
def add_edge (g : VersatileDigraph K) (start_node end_node : K)
    (start_node_value end_node_value : Int) (edge_name : String)
    (edge_weight : Int) : VersatileDigraph K :=
  let g1 :=
    if start_node ∈ dictKeys g.nodes then g
    else g.add_node start_node start_node_value
  let g2 :=
    if end_node ∈ dictKeys g1.nodes then g1
    else g1.add_node end_node end_node_value
  let g3 := { g2 with
    edges := dictInsert g2.edges (start_node, end_node)
      ⟨edge_weight, edge_name⟩ }
  let g4 :=
    if start_node ∈ dictKeys g3.adjacency then g3
    else { g3 with adjacency := g3.adjacency ++ [(start_node, [])] }
  { g4 with
    adjacency := dictModify g4.adjacency start_node
      (fun l => l ++ [(end_node, edge_name)]) }

/-- `VersatileDigraph.get_nodes`. -/
def get_nodes (g : VersatileDigraph K) : List K :=
  dictKeys g.nodes

/-- `VersatileDigraph.get_edge_weight`. -/
def get_edge_weight (g : VersatileDigraph K) (start_node end_node : K) : Int :=
  ((dictGet? g.edges (start_node, end_node)).map EdgeData.weight).getD 0

/-- `VersatileDigraph.get_node_value`. -/
def get_node_value (g : VersatileDigraph K) (node_id : K) : Int :=
  dictGetD g.nodes node_id 0

/-- `VersatileDigraph.predecessors`. -/
def predecessors (g : VersatileDigraph K) (node : K) : List K :=
  (g.edges.filter (fun e => e.1.2 = node)).map (fun e => e.1.1)

/-- `VersatileDigraph.successors`. -/
def successors (g : VersatileDigraph K) (node : K) : List K :=
  (dictGetD g.adjacency node []).map Prod.fst

/-- `VersatileDigraph.indegree`. -/
def indegree (g : VersatileDigraph K) (node : K) : Nat :=
  (g.edges.filter (fun e => e.1.2 = node)).length

/-- `VersatileDigraph.outdegree`. -/
def outdegree (g : VersatileDigraph K) (node : K) : Nat :=
  (dictGetD g.adjacency node []).length

end VersatileDigraph

open VersatileDigraph

/-! ## `SortableDigraph.top_sort` (Kahn's algorithm)

The Python `while queue:` loop is embedded with fuel `g.nodes.length`;
`kahnLoop_sufficient` below shows this fuel is never exhausted on graphs built
through the API.  The queue is a Python list used FIFO (`pop(0)` /
`append`), embedded head-first.  Python would raise `KeyError` if a successor
were missing from `in_degrees`; on API-built graphs every successor is a node,
so the `dictGetD _ _ 0` default is never exercised. -/

/-- The inner `for successor in self.successors(current)` loop of `top_sort`:
decrement the running indegree counter of each successor and enqueue it the
moment the counter reaches 0. -/
def processSuccs (in_degrees : List (K × Int)) (queue : List K) :
    List K → List (K × Int) × List K
  | [] => (in_degrees, queue)
  | v :: rest =>
      let d := dictGetD in_degrees v 0 - 1
      let in_degrees' := dictInsert in_degrees v d
      let queue' := if d = 0 then queue ++ [v] else queue
      processSuccs in_degrees' queue' rest

/-- The `while queue:` loop of `top_sort`: dequeue, append to the result,
process successors. -/
def kahnLoop (g : VersatileDigraph K) :
    Nat → List (K × Int) → List K → List K → Option (List K)
  | _, _, [], result => some result
  | 0, _, _ :: _, _ => none
  | fuel + 1, in_degrees, current :: queue, result =>
      let s := processSuccs in_degrees queue (g.successors current)
      kahnLoop g fuel s.1 s.2 (result ++ [current])

/-- `SortableDigraph.top_sort`.  `Except.error` is the Python
`raise ValueError("Graph contains a cycle")`; the `"fuel"` branch is proved
unreachable for API-built graphs. -/
def top_sort (g : VersatileDigraph K) : Except String (List K) :=
  let in_degrees := g.nodes.map (fun p => (p.1, (g.indegree p.1 : Int)))
  let queue := (dictKeys g.nodes).filter
    (fun node => dictGetD in_degrees node 0 = 0)
  match kahnLoop g g.nodes.length in_degrees queue [] with
  | none => Except.error "fuel"
  | some result =>
      if result.length = g.nodes.length then Except.ok result
      else Except.error "Graph contains a cycle"

/-! ## `TraversableDigraph.dfs` and `.bfs`

Both generators are embedded as functions returning the full (finite) list of
yielded nodes.  The Python stack keeps its top at the *end* of the list, so
the `reversed(...)`-then-`append` pushes become a plain prepend of the
filtered successor list here (head = top), and the initial
`list(successors(start))[::-1]` becomes `successors start` itself. -/

/-- The `while stack:` loop of `dfs`.  Fuel-based; `dfsLoop_sufficient` below
shows the fuel chosen in `dfs` is never exhausted. -/
def dfsLoop (g : VersatileDigraph K) :
    Nat → List K → List K → List K
  | _, _, [] => []
  | 0, _, _ :: _ => []
  | fuel + 1, visited, current :: rest =>
      if current ∈ visited then dfsLoop g fuel visited rest
      else
        current ::
          dfsLoop g fuel (current :: visited)
            (((g.successors current).filter
                (fun s => s ∉ current :: visited)) ++ rest)

/-- Fuel that strictly dominates the number of iterations of the traversal
loops: one unit per node plus one per adjacency entry, plus slack for the
initial stack/queue. -/
def traverseFuel (g : VersatileDigraph K) : Nat :=
  g.nodes.length + (g.adjacency.map (fun p => p.2.length)).sum + 2

/-- `TraversableDigraph.dfs` (the full yielded sequence). -/
def dfs (g : VersatileDigraph K) (start_node : K) : List K :=
  if start_node ∈ dictKeys g.nodes then
    dfsLoop g (traverseFuel g) [start_node] (g.successors start_node)
  else []

/-- The `for successor in self.successors(current)` body of `bfs`:
sequentially mark, enqueue and yield each not-yet-visited successor. -/
def bfsVisit (visited : List K) (queue out : List K) :
    List K → List K × List K × List K
  | [] => (visited, queue, out)
  | s :: rest =>
      if s ∈ visited then bfsVisit visited queue out rest
      else bfsVisit (s :: visited) (queue ++ [s]) (out ++ [s]) rest

/-- The `while queue:` loop of `bfs`. -/
def bfsLoop (g : VersatileDigraph K) :
    Nat → List K → List K → List K → List K
  | _, _, [], out => out
  | 0, _, _ :: _, out => out
  | fuel + 1, visited, current :: rest, out =>
      let s := bfsVisit visited rest out (g.successors current)
      bfsLoop g fuel s.1 s.2.1 s.2.2

/-- `TraversableDigraph.bfs` (the full yielded sequence; each node is yielded
at the moment it is enqueued). -/
def bfs (g : VersatileDigraph K) (start_node : K) : List K :=
  if start_node ∈ dictKeys g.nodes then
    bfsLoop g (traverseFuel g) [start_node] [start_node] []
  else []

/-! ## `DAG` -/

/-- The `while stack:` loop of `DAG._has_path_dfs`.  The Python pushes happen
in successor order with the stack top at the end, so the pop order is the
*reversed* filtered successor list — hence the `.reverse` here (head = top). -/
def hasPathLoop (g : VersatileDigraph K) (target : K) :
    Nat → List K → List K → Bool
  | _, _, [] => false
  | 0, _, _ :: _ => false
  | fuel + 1, visited, current :: rest =>
      if current = target then true
      else if current ∈ visited then hasPathLoop g target fuel visited rest
      else
        hasPathLoop g target fuel (current :: visited)
          (((g.successors current).filter
              (fun s => s ∉ current :: visited)).reverse ++ rest)

/-- `DAG._has_path_dfs`. -/
def has_path_dfs (g : VersatileDigraph K) (start target : K) : Bool :=
  if start ∈ dictKeys g.nodes ∧ target ∈ dictKeys g.nodes then
    if start = target then true
    else hasPathLoop g target (traverseFuel g) [] [start]
  else false

/-- `DAG.add_edge`.  Returns the state after the call together with `true`
when the Python code raises (`ValueError: ... would create a cycle`).  Note
the endpoint auto-creation happens *before* the cycle check, so the state
after a raised call is the graph with the endpoints ensured. -/
def dagAddEdge (g : VersatileDigraph K) (start_node end_node : K)
    (start_node_value end_node_value : Int) (edge_name : String)
    (edge_weight : Int) : Bool × VersatileDigraph K :=
  let g1 :=
    if start_node ∈ dictKeys g.nodes then g
    else g.add_node start_node start_node_value
  let g2 :=
    if end_node ∈ dictKeys g1.nodes then g1
    else g1.add_node end_node end_node_value
  if has_path_dfs g2 end_node start_node then (true, g2)
  else
    (false, g2.add_edge start_node end_node start_node_value end_node_value
      edge_name edge_weight)

/-! ## Graphs built through the API -/

/-- One mutating call on the base store. -/
inductive Op (K : Type) where
  | addNode (node_id : K) (node_value : Int)
  | addEdge (start_node end_node : K) (start_node_value end_node_value : Int)
      (edge_name : String) (edge_weight : Int)
  deriving DecidableEq, Repr

/-- Apply one base-store call. -/
def applyOp (g : VersatileDigraph K) : Op K → VersatileDigraph K
  | .addNode k v => g.add_node k v
  | .addEdge s d sv dv nm w => g.add_edge s d sv dv nm w

/-- A graph built through the base store's `add_node` / `add_edge` calls. -/
def buildGraph (ops : List (Op K)) : VersatileDigraph K :=
  ops.foldl applyOp emptyGraph

/-- Apply one call on the acyclic variant; a rejected `add_edge` keeps the
state the Python object is left in (endpoints possibly auto-created). -/
def applyDagOp (g : VersatileDigraph K) : Op K → VersatileDigraph K
  | .addNode k v => g.add_node k v
  | .addEdge s d sv dv nm w => (dagAddEdge g s d sv dv nm w).2

/-- A state of the acyclic variant reachable from the empty graph by any
sequence of `add_node` / `add_edge` calls (successful or rejected). -/
def buildDag (ops : List (Op K)) : VersatileDigraph K :=
  ops.foldl applyDagOp emptyGraph

/-! ## The edge relation and reachability -/

/-- One adjacency step: there is a stored adjacency entry from `u` to `v`. -/
def Step (g : VersatileDigraph K) (u v : K) : Prop :=
  v ∈ g.successors u

instance (g : VersatileDigraph K) (u v : K) : Decidable (Step g u v) := by
  unfold Step; infer_instance

/-- `v` is reachable from `u` along a (possibly empty) path of adjacency
entries. -/
def Reaches (g : VersatileDigraph K) (u v : K) : Prop :=
  Relation.ReflTransGen (Step g) u v

/-- The transitive closure of the edge relation contains a node that reaches
itself: some node lies on a non-empty cycle. -/
def HasCycle (g : VersatileDigraph K) : Prop :=
  ∃ n, Relation.TransGen (Step g) n n

/-- The graph after the two endpoint-ensuring steps at the top of
`VersatileDigraph.add_edge` (and of `DAG.add_edge`). -/
def ensureNodes (g : VersatileDigraph K) (start_node end_node : K)
    (start_node_value end_node_value : Int) : VersatileDigraph K :=
  let g1 :=
    if start_node ∈ dictKeys g.nodes then g
    else g.add_node start_node start_node_value
  if end_node ∈ dictKeys g1.nodes then g1
  else g1.add_node end_node end_node_value

/-! ## The well-formedness invariant of API-built graphs -/

/-- Structural invariants that every graph reachable through `add_node` /
`add_edge` satisfies: dictionary keys are unique, node and adjacency key
lists coincide, and the edge-metadata map holds exactly the pairs that occur
in some adjacency sequence, with both endpoints registered as nodes. -/
structure WF (g : VersatileDigraph K) : Prop where
  nodes_nodup : (dictKeys g.nodes).Nodup
  edges_nodup : (dictKeys g.edges).Nodup
  adj_keys : dictKeys g.adjacency = dictKeys g.nodes
  edges_iff : ∀ u v : K, (u, v) ∈ dictKeys g.edges ↔ Step g u v
  edges_nodes : ∀ u v : K, (u, v) ∈ dictKeys g.edges →
    u ∈ dictKeys g.nodes ∧ v ∈ dictKeys g.nodes

/-! ## A potential function bounding the traversal loops

Each loop iteration pops one stack/queue entry; pushes happen only when a
node is first visited, and a node in the graph contributes at most
`1 + outdegree` work.  `phi` strictly decreases at every iteration, so the
fuel `traverseFuel` chosen in `dfs` / `bfs` / `has_path_dfs` is never
exhausted. -/

def nodeWeight (g : VersatileDigraph K) (v : K) : Nat :=
  1 + (g.successors v).length

def phi (g : VersatileDigraph K) (visited stack : List K) : Nat :=
  stack.length +
    (((dictKeys g.nodes).filter (fun v => decide (v ∉ visited))).map
      (nodeWeight g)).sum

/-! ## Correctness of `bfs` -/

/-- The sequence of nodes freshly marked (and enqueued and yielded) by one
pass of the inner `for successor ...` loop of `bfs`, starting from a given
visited set. -/
def freshList (visited : List K) : List K → List K
  | [] => []
  | s :: rest =>
      if s ∈ visited then freshList visited rest
      else s :: freshList (s :: visited) rest

/-- The clothing-dependency scenario of the spec, built by inserting the
eleven edges, in order, into an empty acyclic graph (`DAG`). -/
def clothingOp (s d : String) : Op String := Op.addEdge s d 0 0 "" 0

def clothingOps : List (Op String) :=
  [clothingOp "shirt" "pants", clothingOp "shirt" "socks",
   clothingOp "shirt" "vest", clothingOp "pants" "tie",
   clothingOp "pants" "belt", clothingOp "pants" "shoes",
   clothingOp "socks" "shoes", clothingOp "tie" "jacket",
   clothingOp "belt" "jacket", clothingOp "vest" "jacket",
   clothingOp "shoes" "jacket"]

def clothing : VersatileDigraph String := buildDag clothingOps

/-! ## Correctness of `top_sort` (Kahn's algorithm)

`top_sort` initialises its counters from `indegree` (which counts the
edge-metadata map, one record per ordered pair) but decrements them once per
*adjacency occurrence*; the two agree exactly when no ordered pair was
inserted twice, which is the hypothesis `(edgePairs ops).Nodup` below and the
content of the C1 counterexample. -/

/-- The ordered pairs passed to `add_edge`, in call order. -/
def edgePairs (ops : List (Op K)) : List (K × K) :=
  ops.filterMap (fun op =>
    match op with
    | .addEdge s d _ _ _ _ => some (s, d)
    | .addNode _ _ => none)

/-- The list of in-neighbours of `v`, read off the node list. -/
def inNbrs (g : VersatileDigraph K) (v : K) : List K :=
  (dictKeys g.nodes).filter (fun u => decide (Step g u v))

/-- How many elements of `S` are in-neighbours of `v`. -/
def inCount (g : VersatileDigraph K) (S : List K) (v : K) : Nat :=
  (S.filter (fun u => decide (Step g u v))).length

/-- The loop invariant of Kahn's algorithm: the counter dictionary covers
exactly the nodes and records, for each node, its indegree minus the number
of already-output in-neighbours; output and queue are disjoint node lists; a
node is output-or-queued exactly when all its in-neighbours are output; and
the output respects edge direction. -/
structure KahnInv (g : VersatileDigraph K) (idg : List (K × Int))
    (queue result : List K) : Prop where
  keys : dictKeys idg = dictKeys g.nodes
  counts : ∀ v ∈ dictKeys g.nodes,
    dictGetD idg v 0 =
      ((inNbrs g v).length : Int) - (inCount g result v : Int)
  nodup : (result ++ queue).Nodup
  subN : ∀ x ∈ result ++ queue, x ∈ dictKeys g.nodes
  iff4 : ∀ v ∈ dictKeys g.nodes,
    ((v ∈ result ∨ v ∈ queue) ↔ (∀ u, Step g u v → u ∈ result))
  pairA : result.Pairwise (fun a b => ¬ Step g b a)
  selfC : ∀ v ∈ result, ¬ Step g v v

/-- Ordered pair insertions of the C1 counterexample: the pair (A, B) is
added twice, then the two-cycle B→C→B. -/
def dupOps : List (Op String) :=
  [Op.addEdge "A" "B" 0 0 "" 0, Op.addEdge "A" "B" 0 0 "" 0,
   Op.addEdge "B" "C" 0 0 "" 0, Op.addEdge "C" "B" 0 0 "" 0]

/-! ## C6: the iterative `dfs` equals a recursive pre-order DFS -/

/-- Modelled from the spec: a recursive pre-order depth-first search.  Given
the visited set and a worklist of nodes, process the worklist in order: skip
an already-visited node; otherwise mark it, emit it, recurse into its full
successor list (in adjacency order), then continue with the rest of the
worklist under the grown visited set.  Returns the final visited set and the
emitted sequence.  The fuel argument is the embedding device for recursion
depth; the equivalence theorem below only invokes it with fuel exceeding the
loop potential `phi`, where the recursion provably terminates. -/
def recDfsList (g : VersatileDigraph K) :
    Nat → List K → List K → List K × List K
  | _, visited, [] => (visited, [])
  | 0, visited, _ :: _ => (visited, [])
  | fuel + 1, visited, x :: xs =>
      if x ∈ visited then recDfsList g fuel visited xs
      else
        let r1 := recDfsList g fuel (x :: visited) (g.successors x)
        let r2 := recDfsList g fuel r1.1 xs
        (r2.1, x :: (r1.2 ++ r2.2))

/-- Modelled from the spec: the sequence a recursive pre-order DFS from
`start` produces — `start` is pre-marked and omitted, and its successors are
explored in adjacency order. -/
def recDfs (g : VersatileDigraph K) (start_node : K) : List K :=
  if start_node ∈ dictKeys g.nodes then
    (recDfsList g (traverseFuel g) [start_node]
      (g.successors start_node)).2
  else []

/-! ## BFS level order (C7) -/

/-- `StepN g n u v`: there is a walk of exactly `n` adjacency steps from
`u` to `v`. -/
def StepN (g : VersatileDigraph K) : Nat → K → K → Prop
  | 0, u, v => u = v
  | n + 1, u, w => ∃ v, Step g u v ∧ StepN g n v w

/-- `distLE g s v n`: some walk from `s` reaches `v` in at most `n` steps,
i.e. the shortest-path distance from `s` to `v` is at most `n`. -/
def distLE (g : VersatileDigraph K) (s v : K) (n : Nat) : Prop :=
  ∃ m, m ≤ n ∧ StepN g m s v

/-- `DistIs g s v k`: the shortest-path distance from `s` to `v` is exactly
`k` — some walk of length `k` reaches `v` and no shorter walk does. -/
def DistIs (g : VersatileDigraph K) (s v : K) (k : Nat) : Prop :=
  StepN g k s v ∧ ∀ m, StepN g m s v → k ≤ m

/-- `LevelLE g s a b`: the shortest-path distance from `s` to `a` is at most
the one to `b`, phrased without a distance function: every walk length
reaching `b` dominates some walk length reaching `a`. -/
def LevelLE (g : VersatileDigraph K) (s a b : K) : Prop :=
  ∀ n, StepN g n s b → ∃ m, m ≤ n ∧ StepN g m s a

/-! ## Theorems -/

/-! ## Dictionary lemmas -/

theorem dictKeys_nil {B : Type} : dictKeys ([] : List (K × B)) = [] := rfl

theorem dictKeys_cons {B : Type} (p : K × B) (d : List (K × B)) :
    dictKeys (p :: d) = p.1 :: dictKeys d := rfl

theorem dictKeys_append {B : Type} (d d' : List (K × B)) :
    dictKeys (d ++ d') = dictKeys d ++ dictKeys d' := by
  simp [dictKeys]

theorem dictInsert_cons_hit {B : Type} {p : K × B} {k : K} (d : List (K × B))
    (v : B) (h : p.1 = k) : dictInsert (p :: d) k v = (k, v) :: d := by
  simp [dictInsert, h]

theorem dictInsert_cons_miss {B : Type} {p : K × B} {k : K} (d : List (K × B))
    (v : B) (h : p.1 ≠ k) : dictInsert (p :: d) k v = p :: dictInsert d k v := by
  simp [dictInsert, h]

theorem dictGet?_cons_hit {B : Type} {p : K × B} {k : K} (d : List (K × B))
    (h : p.1 = k) : dictGet? (p :: d) k = some p.2 := by
  simp [dictGet?, h]

theorem dictGet?_cons_miss {B : Type} {p : K × B} {k : K} (d : List (K × B))
    (h : p.1 ≠ k) : dictGet? (p :: d) k = dictGet? d k := by
  simp [dictGet?, h]

theorem dictModify_cons_hit {B : Type} {p : K × B} {k : K} (d : List (K × B))
    (f : B → B) (h : p.1 = k) :
    dictModify (p :: d) k f = (p.1, f p.2) :: d := by
  simp [dictModify, h]

theorem dictModify_cons_miss {B : Type} {p : K × B} {k : K} (d : List (K × B))
    (f : B → B) (h : p.1 ≠ k) :
    dictModify (p :: d) k f = p :: dictModify d k f := by
  simp [dictModify, h]

theorem dictGet?_eq_none_iff {B : Type} (d : List (K × B)) (k : K) :
    dictGet? d k = none ↔ k ∉ dictKeys d := by
  induction d with
  | nil => simp [dictGet?, dictKeys_nil]
  | cons p rest ih =>
      by_cases h : p.1 = k
      · rw [dictGet?_cons_hit _ h, dictKeys_cons]
        simp [h]
      · rw [dictGet?_cons_miss _ h, dictKeys_cons, ih]
        simp [Ne.symm h]

theorem mem_dictKeys_of_dictGet? {B : Type} {d : List (K × B)} {k : K}
    {v : B} (h : dictGet? d k = some v) : k ∈ dictKeys d := by
  by_contra hk
  rw [← dictGet?_eq_none_iff] at hk
  rw [hk] at h
  cases h

theorem dictKeys_dictInsert_of_mem {B : Type} {d : List (K × B)} {k : K}
    (v : B) (h : k ∈ dictKeys d) :
    dictKeys (dictInsert d k v) = dictKeys d := by
  induction d with
  | nil => simp [dictKeys_nil] at h
  | cons p rest ih =>
      by_cases hpk : p.1 = k
      · rw [dictInsert_cons_hit _ _ hpk, dictKeys_cons, dictKeys_cons, hpk]
      · rw [dictKeys_cons, List.mem_cons] at h
        rcases h with h | h
        · exact absurd h.symm hpk
        · rw [dictInsert_cons_miss _ _ hpk, dictKeys_cons, dictKeys_cons, ih h]

theorem dictKeys_dictInsert_of_not_mem {B : Type} {d : List (K × B)} {k : K}
    (v : B) (h : k ∉ dictKeys d) :
    dictKeys (dictInsert d k v) = dictKeys d ++ [k] := by
  induction d with
  | nil => simp [dictInsert, dictKeys]
  | cons p rest ih =>
      rw [dictKeys_cons, List.mem_cons] at h
      push_neg at h
      rw [dictInsert_cons_miss _ _ (Ne.symm h.1), dictKeys_cons, dictKeys_cons,
        ih h.2, List.cons_append]

theorem mem_dictKeys_dictInsert {B : Type} (d : List (K × B)) (k x : K)
    (v : B) : x ∈ dictKeys (dictInsert d k v) ↔ x ∈ dictKeys d ∨ x = k := by
  by_cases h : k ∈ dictKeys d
  · rw [dictKeys_dictInsert_of_mem v h]
    constructor
    · exact Or.inl
    · rintro (hx | rfl) <;> [exact hx; exact h]
  · rw [dictKeys_dictInsert_of_not_mem v h]; simp

theorem dictGet?_dictInsert_self {B : Type} (d : List (K × B)) (k : K)
    (v : B) : dictGet? (dictInsert d k v) k = some v := by
  induction d with
  | nil => simp [dictInsert, dictGet?]
  | cons p rest ih =>
      by_cases hpk : p.1 = k
      · rw [dictInsert_cons_hit _ _ hpk, dictGet?_cons_hit _ rfl]
      · rw [dictInsert_cons_miss _ _ hpk, dictGet?_cons_miss _ hpk, ih]

theorem dictGet?_dictInsert_ne {B : Type} (d : List (K × B)) {k x : K}
    (v : B) (h : x ≠ k) :
    dictGet? (dictInsert d k v) x = dictGet? d x := by
  induction d with
  | nil => simp [dictInsert, dictGet?, Ne.symm h]
  | cons p rest ih =>
      by_cases hpk : p.1 = k
      · rw [dictInsert_cons_hit _ _ hpk,
          dictGet?_cons_miss _ (show k ≠ x from Ne.symm h),
          dictGet?_cons_miss _ (hpk ▸ (show k ≠ x from Ne.symm h))]
      · by_cases hpx : p.1 = x
        · rw [dictInsert_cons_miss _ _ hpk, dictGet?_cons_hit _ hpx,
            dictGet?_cons_hit _ hpx]
        · rw [dictInsert_cons_miss _ _ hpk, dictGet?_cons_miss _ hpx,
            dictGet?_cons_miss _ hpx, ih]

theorem dictKeys_dictModify {B : Type} (d : List (K × B)) (k : K)
    (f : B → B) : dictKeys (dictModify d k f) = dictKeys d := by
  induction d with
  | nil => rfl
  | cons p rest ih =>
      by_cases hpk : p.1 = k
      · rw [dictModify_cons_hit _ _ hpk, dictKeys_cons, dictKeys_cons]
      · rw [dictModify_cons_miss _ _ hpk, dictKeys_cons, dictKeys_cons, ih]

theorem dictGet?_dictModify_self {B : Type} (d : List (K × B)) (k : K)
    (f : B → B) :
    dictGet? (dictModify d k f) k = (dictGet? d k).map f := by
  induction d with
  | nil => rfl
  | cons p rest ih =>
      by_cases hpk : p.1 = k
      · rw [dictModify_cons_hit _ _ hpk,
          dictGet?_cons_hit (p := (p.1, f p.2)) _ hpk,
          dictGet?_cons_hit _ hpk]
        rfl
      · rw [dictModify_cons_miss _ _ hpk, dictGet?_cons_miss _ hpk,
          dictGet?_cons_miss _ hpk, ih]

theorem dictGet?_dictModify_ne {B : Type} (d : List (K × B)) {k x : K}
    (f : B → B) (h : x ≠ k) :
    dictGet? (dictModify d k f) x = dictGet? d x := by
  induction d with
  | nil => rfl
  | cons p rest ih =>
      by_cases hpk : p.1 = k
      · rw [dictModify_cons_hit _ _ hpk,
          dictGet?_cons_miss (p := (p.1, f p.2)) _ (hpk ▸ Ne.symm h),
          dictGet?_cons_miss _ (hpk ▸ Ne.symm h)]
      · by_cases hpx : p.1 = x
        · rw [dictModify_cons_miss _ _ hpk, dictGet?_cons_hit _ hpx,
            dictGet?_cons_hit _ hpx]
        · rw [dictModify_cons_miss _ _ hpk, dictGet?_cons_miss _ hpx,
            dictGet?_cons_miss _ hpx, ih]

theorem dictGet?_append_left {B : Type} {d : List (K × B)} {k : K}
    (d' : List (K × B)) (h : k ∈ dictKeys d) :
    dictGet? (d ++ d') k = dictGet? d k := by
  induction d with
  | nil => simp [dictKeys_nil] at h
  | cons p rest ih =>
      by_cases hpk : p.1 = k
      · rw [List.cons_append, dictGet?_cons_hit _ hpk, dictGet?_cons_hit _ hpk]
      · rw [dictKeys_cons, List.mem_cons] at h
        rcases h with h | h
        · exact absurd h.symm hpk
        · rw [List.cons_append, dictGet?_cons_miss _ hpk,
            dictGet?_cons_miss _ hpk, ih h]

theorem dictGet?_append_right {B : Type} {d : List (K × B)} {k : K}
    (d' : List (K × B)) (h : k ∉ dictKeys d) :
    dictGet? (d ++ d') k = dictGet? d' k := by
  induction d with
  | nil => simp
  | cons p rest ih =>
      rw [dictKeys_cons, List.mem_cons] at h
      push_neg at h
      rw [List.cons_append, dictGet?_cons_miss _ (Ne.symm h.1), ih h.2]

theorem dictKeys_nodup_dictInsert {B : Type} {d : List (K × B)} (k : K)
    (v : B) (h : (dictKeys d).Nodup) :
    (dictKeys (dictInsert d k v)).Nodup := by
  by_cases hk : k ∈ dictKeys d
  · rwa [dictKeys_dictInsert_of_mem v hk]
  · rw [dictKeys_dictInsert_of_not_mem v hk]
    simpa [List.nodup_append] using ⟨h, hk⟩

/-! ## Effect of `add_node` and `add_edge` on the graph components -/

theorem nodes_add_node (g : VersatileDigraph K) (k : K) (v : Int) :
    (g.add_node k v).nodes = dictInsert g.nodes k v := rfl

theorem edges_add_node (g : VersatileDigraph K) (k : K) (v : Int) :
    (g.add_node k v).edges = g.edges := rfl

theorem mem_nodeKeys_add_node (g : VersatileDigraph K) (k x : K) (v : Int) :
    x ∈ dictKeys (g.add_node k v).nodes ↔ x ∈ dictKeys g.nodes ∨ x = k :=
  mem_dictKeys_dictInsert _ _ _ _

theorem successors_add_node (g : VersatileDigraph K) (k x : K) (v : Int) :
    (g.add_node k v).successors x = g.successors x := by
  unfold VersatileDigraph.add_node VersatileDigraph.successors
  by_cases hk : k ∈ dictKeys g.adjacency
  · simp [hk]
  · simp only [hk, if_false]
    by_cases hx : x ∈ dictKeys g.adjacency
    · rw [dictGetD, dictGetD, dictGet?_append_left _ hx]
    · rw [dictGetD, dictGetD, dictGet?_append_right _ hx]
      rw [(dictGet?_eq_none_iff g.adjacency x).2 hx]
      by_cases hkx : k = x
      · rw [dictGet?_cons_hit _ hkx]; rfl
      · rw [dictGet?_cons_miss _ hkx]; rfl

theorem get_node_value_add_node_self (g : VersatileDigraph K) (k : K)
    (v : Int) : (g.add_node k v).get_node_value k = v := by
  unfold VersatileDigraph.get_node_value VersatileDigraph.add_node
  rw [dictGetD, dictGet?_dictInsert_self]; rfl

theorem get_node_value_add_node_ne (g : VersatileDigraph K) {k x : K}
    (v : Int) (h : x ≠ k) :
    (g.add_node k v).get_node_value x = g.get_node_value x := by
  unfold VersatileDigraph.get_node_value VersatileDigraph.add_node
  rw [dictGetD, dictGetD, dictGet?_dictInsert_ne _ _ h]

theorem successors_ensureNodes (g : VersatileDigraph K) (s d x : K)
    (sv dv : Int) :
    (ensureNodes g s d sv dv).successors x = g.successors x := by
  unfold ensureNodes
  by_cases h1 : s ∈ dictKeys g.nodes <;>
    simp only [h1, if_true, if_false] <;>
    by_cases h2 :
      d ∈ dictKeys (if s ∈ dictKeys g.nodes then g
        else g.add_node s sv).nodes <;>
    simp_all [successors_add_node]

theorem nodes_keys_ensureNodes_mem (g : VersatileDigraph K) (s d x : K)
    (sv dv : Int) :
    x ∈ dictKeys (ensureNodes g s d sv dv).nodes ↔
      x ∈ dictKeys g.nodes ∨ x = s ∨ x = d := by
  unfold ensureNodes
  by_cases h1 : s ∈ dictKeys g.nodes
  · simp only [h1, if_true]
    by_cases h2 : d ∈ dictKeys g.nodes
    · simp only [h2, if_true]
      constructor
      · exact fun hx => Or.inl hx
      · rintro (hx | rfl | rfl)
        exacts [hx, h1, h2]
    · simp only [h2, if_false, mem_nodeKeys_add_node]
      constructor
      · rintro (hx | rfl)
        · exact Or.inl hx
        · exact Or.inr (Or.inr rfl)
      · rintro (hx | rfl | rfl)
        · exact Or.inl hx
        · exact Or.inl h1
        · exact Or.inr rfl
  · simp only [h1, if_false]
    by_cases h2 : d ∈ dictKeys (g.add_node s sv).nodes
    · simp only [h2, if_true, mem_nodeKeys_add_node]
      rw [mem_nodeKeys_add_node] at h2
      constructor
      · rintro (hx | rfl)
        · exact Or.inl hx
        · exact Or.inr (Or.inl rfl)
      · rintro (hx | rfl | rfl)
        · exact Or.inl hx
        · exact Or.inr rfl
        · rcases h2 with h2 | rfl
          · exact Or.inl h2
          · exact Or.inr rfl
    · simp only [h2, if_false, mem_nodeKeys_add_node]
      constructor
      · rintro ((hx | rfl) | rfl)
        · exact Or.inl hx
        · exact Or.inr (Or.inl rfl)
        · exact Or.inr (Or.inr rfl)
      · rintro (hx | rfl | rfl)
        · exact Or.inl (Or.inl hx)
        · exact Or.inl (Or.inr rfl)
        · exact Or.inr rfl

theorem add_edge_eq_ensure (g : VersatileDigraph K) (s d : K) (sv dv : Int)
    (nm : String) (w : Int) :
    g.add_edge s d sv dv nm w =
      (ensureNodes g s d sv dv).add_edge s d sv dv nm w := by
  have hens : ∀ x, x ∈ dictKeys (ensureNodes g s d sv dv).nodes ↔
      x ∈ dictKeys g.nodes ∨ x = s ∨ x = d :=
    fun x => nodes_keys_ensureNodes_mem g s d x sv dv
  unfold VersatileDigraph.add_edge ensureNodes
  by_cases h1 : s ∈ dictKeys g.nodes <;> simp only [h1, if_true, if_false]
  · by_cases h2 : d ∈ dictKeys g.nodes <;> simp only [h2, if_true, if_false]
    · simp [h1, h2]
    · simp [h1, mem_nodeKeys_add_node]
  · by_cases h2 : d ∈ dictKeys (g.add_node s sv).nodes <;>
      simp only [h2, if_true, if_false] <;>
      simp_all [mem_nodeKeys_add_node]

theorem successors_add_edge_of_mem {g : VersatileDigraph K} {s d : K}
    (x : K) (sv dv : Int) (nm : String) (w : Int)
    (hs : s ∈ dictKeys g.nodes) (hd : d ∈ dictKeys g.nodes) :
    (g.add_edge s d sv dv nm w).successors x =
      if x = s then g.successors s ++ [d] else g.successors x := by
  unfold VersatileDigraph.add_edge
  simp only [hs, hd, if_true]
  by_cases hadj : s ∈ dictKeys g.adjacency
  · simp only [hadj, if_true]
    unfold VersatileDigraph.successors
    by_cases hx : x = s
    · subst hx
      obtain ⟨l, hl⟩ : ∃ l, dictGet? g.adjacency x = some l := by
        cases h : dictGet? g.adjacency x with
        | none => exact absurd ((dictGet?_eq_none_iff _ _).1 h) (by simpa using hadj)
        | some l => exact ⟨l, rfl⟩
      simp [dictGetD, dictGet?_dictModify_self, hl]
    · simp [dictGetD, dictGet?_dictModify_ne _ _ hx, hx]
  · simp only [hadj, if_false]
    unfold VersatileDigraph.successors
    by_cases hx : x = s
    · subst hx
      have h1 : dictGet? (g.adjacency ++ [(x, [])]) x = some [] := by
        rw [dictGet?_append_right _ hadj, dictGet?_cons_hit _ rfl]
      have h0 : dictGet? g.adjacency x = none :=
        (dictGet?_eq_none_iff _ _).2 hadj
      simp [dictGetD, dictGet?_dictModify_self, h1, h0]
    · rw [dictGetD, dictGet?_dictModify_ne _ _ hx, if_neg hx, dictGetD]
      by_cases hxk : x ∈ dictKeys g.adjacency
      · rw [dictGet?_append_left _ hxk]
      · rw [dictGet?_append_right _ hxk,
          dictGet?_cons_miss _ (fun h => hx h.symm),
          (dictGet?_eq_none_iff _ _).2 hxk]
        rfl

/-- The one key structural fact about `add_edge`: it appends `end_node` to
`start_node`'s successor sequence and changes no other successor sequence. -/
theorem successors_add_edge (g : VersatileDigraph K) (s d x : K)
    (sv dv : Int) (nm : String) (w : Int) :
    (g.add_edge s d sv dv nm w).successors x =
      if x = s then g.successors s ++ [d] else g.successors x := by
  rw [add_edge_eq_ensure,
    successors_add_edge_of_mem x sv dv nm w
      ((nodes_keys_ensureNodes_mem g s d s sv dv).2 (Or.inr (Or.inl rfl)))
      ((nodes_keys_ensureNodes_mem g s d d sv dv).2 (Or.inr (Or.inr rfl))),
    successors_ensureNodes, successors_ensureNodes]

theorem step_add_edge (g : VersatileDigraph K) (s d u v : K)
    (sv dv : Int) (nm : String) (w : Int) :
    Step (g.add_edge s d sv dv nm w) u v ↔
      Step g u v ∨ (u = s ∧ v = d) := by
  unfold Step
  rw [successors_add_edge]
  by_cases hu : u = s
  · subst hu; simp
  · simp [hu]

theorem step_add_node (g : VersatileDigraph K) (k u v : K) (kv : Int) :
    Step (g.add_node k kv) u v ↔ Step g u v := by
  unfold Step; rw [successors_add_node]

theorem edges_ite (c : Prop) [Decidable c] (a b : VersatileDigraph K) :
    (if c then a else b).edges = if c then a.edges else b.edges := by
  split <;> rfl

theorem nodes_ite (c : Prop) [Decidable c] (a b : VersatileDigraph K) :
    (if c then a else b).nodes = if c then a.nodes else b.nodes := by
  split <;> rfl

theorem edges_add_edge (g : VersatileDigraph K) (s d : K) (sv dv : Int)
    (nm : String) (w : Int) :
    (g.add_edge s d sv dv nm w).edges =
      dictInsert g.edges (s, d) ⟨w, nm⟩ := by
  unfold VersatileDigraph.add_edge
  simp [edges_ite, edges_add_node]

theorem nodes_add_edge (g : VersatileDigraph K) (s d : K) (sv dv : Int)
    (nm : String) (w : Int) :
    (g.add_edge s d sv dv nm w).nodes = (ensureNodes g s d sv dv).nodes := by
  unfold VersatileDigraph.add_edge ensureNodes
  simp [nodes_ite]

theorem mem_nodeKeys_add_edge (g : VersatileDigraph K) (s d x : K)
    (sv dv : Int) (nm : String) (w : Int) :
    x ∈ dictKeys (g.add_edge s d sv dv nm w).nodes ↔
      x ∈ dictKeys g.nodes ∨ x = s ∨ x = d := by
  rw [nodes_add_edge]; exact nodes_keys_ensureNodes_mem g s d x sv dv

theorem get_node_value_ensureNodes_of_mem {g : VersatileDigraph K}
    {s d x : K} (sv dv : Int) (hx : x ∈ dictKeys g.nodes) :
    (ensureNodes g s d sv dv).get_node_value x = g.get_node_value x := by
  unfold ensureNodes
  by_cases h1 : s ∈ dictKeys g.nodes
  · simp only [h1, if_true]
    by_cases h2 : d ∈ dictKeys g.nodes
    · simp [h2]
    · have hxd : x ≠ d := fun h => h2 (h ▸ hx)
      simp [h2, get_node_value_add_node_ne _ _ hxd]
  · have hxs : x ≠ s := fun h => h1 (h ▸ hx)
    simp only [h1, if_false]
    by_cases h2 : d ∈ dictKeys (g.add_node s sv).nodes
    · simp [h2, get_node_value_add_node_ne _ _ hxs]
    · have hxd : x ≠ d := by
        intro h
        subst h
        exact h2 ((mem_nodeKeys_add_node g s x sv).2 (Or.inl hx))
      simp [h2, get_node_value_add_node_ne _ _ hxd,
        get_node_value_add_node_ne _ _ hxs]

theorem get_node_value_add_edge_of_mem {g : VersatileDigraph K}
    {s d x : K} (sv dv : Int) (nm : String) (w : Int)
    (hx : x ∈ dictKeys g.nodes) :
    (g.add_edge s d sv dv nm w).get_node_value x = g.get_node_value x := by
  unfold VersatileDigraph.get_node_value
  rw [nodes_add_edge]
  exact get_node_value_ensureNodes_of_mem sv dv hx

theorem get_node_value_ensureNodes_fresh_src {g : VersatileDigraph K}
    {s : K} (d : K) (sv dv : Int) (hs : s ∉ dictKeys g.nodes) :
    (ensureNodes g s d sv dv).get_node_value s = sv := by
  unfold ensureNodes
  simp only [hs, if_false]
  by_cases h2 : d ∈ dictKeys (g.add_node s sv).nodes
  · simp [h2, get_node_value_add_node_self]
  · have hsd : s ≠ d := by
      intro h
      exact h2 (h ▸ (mem_nodeKeys_add_node g s s sv).2 (Or.inr rfl))
    simp [h2, get_node_value_add_node_ne _ _ hsd,
      get_node_value_add_node_self]

theorem get_node_value_ensureNodes_fresh_dst {g : VersatileDigraph K}
    {s d : K} (sv dv : Int) (hd : d ∉ dictKeys g.nodes) (hds : d ≠ s) :
    (ensureNodes g s d sv dv).get_node_value d = dv := by
  unfold ensureNodes
  by_cases h1 : s ∈ dictKeys g.nodes
  · simp only [h1, if_true, hd, if_false]
    exact get_node_value_add_node_self g d dv
  · simp only [h1, if_false]
    have h2 : d ∉ dictKeys (g.add_node s sv).nodes := by
      rw [mem_nodeKeys_add_node]
      rintro (h | h)
      · exact hd h
      · exact hds h
    simp only [h2, if_false]
    exact get_node_value_add_node_self _ d dv

theorem WF.empty : WF (emptyGraph : VersatileDigraph K) := by
  refine ⟨List.nodup_nil, List.nodup_nil, rfl, ?_, ?_⟩
  · intro u v
    constructor
    · intro h; cases h
    · intro h
      simp [Step, VersatileDigraph.successors, emptyGraph, dictGetD,
        dictGet?] at h
  · intro u v h; cases h

theorem WF.step_src_mem {g : VersatileDigraph K} (hwf : WF g) {u v : K}
    (h : Step g u v) : u ∈ dictKeys g.nodes :=
  (hwf.edges_nodes u v ((hwf.edges_iff u v).2 h)).1

theorem WF.step_dst_mem {g : VersatileDigraph K} (hwf : WF g) {u v : K}
    (h : Step g u v) : v ∈ dictKeys g.nodes :=
  (hwf.edges_nodes u v ((hwf.edges_iff u v).2 h)).2

theorem WF.add_node {g : VersatileDigraph K} (hwf : WF g) (k : K)
    (v : Int) : WF (g.add_node k v) := by
  have hstep : ∀ u x, Step (g.add_node k v) u x ↔ Step g u x :=
    fun u x => step_add_node g k u x v
  refine ⟨?_, ?_, ?_, ?_, ?_⟩
  · exact dictKeys_nodup_dictInsert k v hwf.nodes_nodup
  · exact hwf.edges_nodup
  · show dictKeys (VersatileDigraph.add_node g k v).adjacency =
      dictKeys (dictInsert g.nodes k v)
    unfold VersatileDigraph.add_node
    by_cases hk : k ∈ dictKeys g.nodes
    · have hadj : k ∈ dictKeys g.adjacency := by rw [hwf.adj_keys]; exact hk
      simp only [hadj, if_true]
      rw [dictKeys_dictInsert_of_mem v hk, hwf.adj_keys]
    · have hadj : k ∉ dictKeys g.adjacency := by rw [hwf.adj_keys]; exact hk
      simp only [hadj, if_false]
      rw [dictKeys_dictInsert_of_not_mem v hk, dictKeys_append,
        hwf.adj_keys]
      rfl
  · intro u x
    rw [hstep u x, edges_add_node]
    exact hwf.edges_iff u x
  · intro u x h
    rw [edges_add_node] at h
    rcases hwf.edges_nodes u x h with ⟨h1, h2⟩
    exact ⟨(mem_nodeKeys_add_node g k u v).2 (Or.inl h1),
      (mem_nodeKeys_add_node g k x v).2 (Or.inl h2)⟩

theorem WF.ensureNodes {g : VersatileDigraph K} (hwf : WF g) (s d : K)
    (sv dv : Int) : WF (StudentCode.ensureNodes g s d sv dv) := by
  unfold StudentCode.ensureNodes
  by_cases h1 : s ∈ dictKeys g.nodes <;> simp only [h1, if_true, if_false] <;>
    split
  · exact hwf
  · exact hwf.add_node d dv
  · exact hwf.add_node s sv
  · exact (hwf.add_node s sv).add_node d dv

theorem WF.add_edge {g : VersatileDigraph K} (hwf : WF g) (s d : K)
    (sv dv : Int) (nm : String) (w : Int) :
    WF (g.add_edge s d sv dv nm w) := by
  have hens := hwf.ensureNodes s d sv dv
  set g2 := StudentCode.ensureNodes g s d sv dv with hg2
  rw [add_edge_eq_ensure]
  have hs : s ∈ dictKeys g2.nodes :=
    (nodes_keys_ensureNodes_mem g s d s sv dv).2 (Or.inr (Or.inl rfl))
  have hd : d ∈ dictKeys g2.nodes :=
    (nodes_keys_ensureNodes_mem g s d d sv dv).2 (Or.inr (Or.inr rfl))
  have hstep : ∀ u x, Step (g2.add_edge s d sv dv nm w) u x ↔
      Step g2 u x ∨ (u = s ∧ x = d) :=
    fun u x => step_add_edge g2 s d u x sv dv nm w
  have hedges : (g2.add_edge s d sv dv nm w).edges =
      dictInsert g2.edges (s, d) ⟨w, nm⟩ := edges_add_edge g2 s d sv dv nm w
  have hnodes : (g2.add_edge s d sv dv nm w).nodes = g2.nodes := by
    rw [nodes_add_edge]
    unfold StudentCode.ensureNodes
    simp [hs, hd]
  refine ⟨?_, ?_, ?_, ?_, ?_⟩
  · rw [hnodes]; exact hens.nodes_nodup
  · rw [hedges]
    exact dictKeys_nodup_dictInsert _ _ hens.edges_nodup
  · rw [hnodes, ← hens.adj_keys]
    show dictKeys (VersatileDigraph.add_edge g2 s d sv dv nm w).adjacency = _
    unfold VersatileDigraph.add_edge
    simp only [hs, hd, if_true]
    have hsadj : s ∈ dictKeys g2.adjacency := hens.adj_keys ▸ hs
    simp only [hsadj, if_true]
    exact dictKeys_dictModify _ _ _
  · intro u x
    rw [hstep u x, hedges, mem_dictKeys_dictInsert, hens.edges_iff u x,
      Prod.mk.injEq]
  · intro u x h
    rw [hnodes]
    rw [hedges, mem_dictKeys_dictInsert] at h
    rcases h with h | h
    · exact hens.edges_nodes u x h
    · rw [Prod.mk.injEq] at h
      exact ⟨h.1 ▸ hs, h.2 ▸ hd⟩

theorem WF.applyOp {g : VersatileDigraph K} (hwf : WF g) (op : Op K) :
    WF (StudentCode.applyOp g op) := by
  cases op with
  | addNode k v => exact hwf.add_node k v
  | addEdge s d sv dv nm w => exact hwf.add_edge s d sv dv nm w

theorem WF.foldl {g : VersatileDigraph K} (hwf : WF g) (ops : List (Op K)) :
    WF (ops.foldl StudentCode.applyOp g) := by
  induction ops generalizing g with
  | nil => exact hwf
  | cons op rest ih => exact ih (hwf.applyOp op)

theorem wf_buildGraph (ops : List (Op K)) : WF (buildGraph ops) :=
  WF.empty.foldl ops

theorem successors_eq_nil_of_not_mem {g : VersatileDigraph K} (hwf : WF g)
    {c : K} (hc : c ∉ dictKeys g.nodes) : g.successors c = [] := by
  unfold VersatileDigraph.successors
  rw [dictGetD, (dictGet?_eq_none_iff _ _).2 (hwf.adj_keys ▸ hc)]
  rfl

theorem sum_filter_visit_of_mem {N : List K} (hN : N.Nodup) {c : K}
    (hc : c ∈ N) {visited : List K} (hcv : c ∉ visited) (f : K → Nat) :
    ((N.filter (fun v => decide (v ∉ visited))).map f).sum =
      f c + ((N.filter (fun v => decide (v ∉ c :: visited))).map f).sum := by
  have hperm : List.Perm (N.filter (fun v => decide (v ∉ visited)))
      (c :: N.filter (fun v => decide (v ∉ c :: visited))) := by
    have h1 : (N.filter (fun v => decide (v ∉ visited))).Nodup :=
      hN.filter _
    have h2 : (c :: N.filter (fun v => decide (v ∉ c :: visited))).Nodup := by
      refine List.Nodup.cons ?_ (hN.filter _)
      intro hmem
      rcases List.mem_filter.1 hmem with ⟨_, hdec⟩
      simp at hdec
    refine (List.subperm_of_subset h1 ?_).antisymm
      (List.subperm_of_subset h2 ?_)
    · intro x hx
      rcases List.mem_filter.1 hx with ⟨hxN, hdec⟩
      rw [decide_eq_true_iff] at hdec
      by_cases hxc : x = c
      · exact hxc ▸ List.mem_cons_self _ _
      · refine List.mem_cons_of_mem _ (List.mem_filter.2 ⟨hxN, ?_⟩)
        rw [decide_eq_true_iff]
        intro hmem
        rcases List.mem_cons.1 hmem with h | h
        · exact hxc h
        · exact hdec h
    · intro x hx
      rcases List.mem_cons.1 hx with rfl | hx
      · exact List.mem_filter.2 ⟨hc, by rw [decide_eq_true_iff]; exact hcv⟩
      · rcases List.mem_filter.1 hx with ⟨hxN, hdec⟩
        rw [decide_eq_true_iff] at hdec
        refine List.mem_filter.2 ⟨hxN, ?_⟩
        rw [decide_eq_true_iff]
        intro hmem
        exact hdec (List.mem_cons_of_mem _ hmem)
  have := (hperm.map f).sum_eq
  rw [this, List.map_cons, List.sum_cons]

theorem sum_filter_visit_of_not_mem {N : List K} {c : K} (hc : c ∉ N)
    (visited : List K) (f : K → Nat) :
    ((N.filter (fun v => decide (v ∉ visited))).map f).sum =
      ((N.filter (fun v => decide (v ∉ c :: visited))).map f).sum := by
  have : N.filter (fun v => decide (v ∉ visited)) =
      N.filter (fun v => decide (v ∉ c :: visited)) := by
    apply List.filter_congr
    intro x hx
    have hxc : x ≠ c := fun h => hc (h ▸ hx)
    by_cases hxv : x ∈ visited
    · simp [hxv]
    · simp [hxv, hxc]
  rw [this]

theorem phi_skip (g : VersatileDigraph K) (visited : List K) (c : K)
    (rest : List K) :
    phi g visited (c :: rest) = phi g visited rest + 1 := by
  unfold phi
  rw [List.length_cons]
  omega

/-- Visiting a fresh node strictly decreases the potential, provided the
pushed successors number at most the node's outdegree. -/
theorem phi_visit_lt {g : VersatileDigraph K} (hwf : WF g) {c : K}
    {visited : List K} (hcv : c ∉ visited) (pushed rest : List K)
    (hp : pushed.length ≤ (g.successors c).length) :
    phi g (c :: visited) (pushed ++ rest) < phi g visited (c :: rest) := by
  by_cases hcN : c ∈ dictKeys g.nodes
  · have hsum := sum_filter_visit_of_mem hwf.nodes_nodup hcN hcv
      (nodeWeight g)
    unfold phi
    rw [hsum]
    unfold nodeWeight
    rw [List.length_append, List.length_cons]
    omega
  · have hsucc : g.successors c = [] := successors_eq_nil_of_not_mem hwf hcN
    have hp0 : pushed.length = 0 := by
      rw [hsucc] at hp
      simpa using hp
    have hsum := sum_filter_visit_of_not_mem hcN visited (nodeWeight g)
    unfold phi
    rw [hsum, List.length_append, hp0, List.length_cons]
    omega

/-! ## Correctness of `DAG._has_path_dfs` -/

theorem reaches_mem_of_closed {g : VersatileDigraph K} {V : List K}
    (hcl : ∀ v ∈ V, ∀ y, Step g v y → y ∈ V) {x y : K} (hx : x ∈ V)
    (hr : Reaches g x y) : y ∈ V := by
  induction hr with
  | refl => exact hx
  | tail _ hstep ih => exact hcl _ ih _ hstep

theorem hasPathLoop_sound (g : VersatileDigraph K) (start target : K) :
    ∀ (fuel : Nat) (visited stack : List K),
      (∀ x ∈ stack, Reaches g start x) →
      hasPathLoop g target fuel visited stack = true →
      Reaches g start target := by
  intro fuel
  induction fuel with
  | zero =>
      intro visited stack hstack h
      cases stack <;> simp [hasPathLoop] at h
  | succ fuel ih =>
      intro visited stack hstack h
      cases stack with
      | nil => simp [hasPathLoop] at h
      | cons c rest =>
          by_cases hct : c = target
          · exact hct ▸ hstack c (List.mem_cons_self _ _)
          · by_cases hcv : c ∈ visited
            · rw [hasPathLoop, if_neg hct, if_pos hcv] at h
              exact ih visited rest
                (fun x hx => hstack x (List.mem_cons_of_mem _ hx)) h
            · rw [hasPathLoop, if_neg hct, if_neg hcv] at h
              refine ih _ _ ?_ h
              intro x hx
              rcases List.mem_append.1 hx with hx | hx
              · rw [List.mem_reverse] at hx
                rcases List.mem_filter.1 hx with ⟨hxs, _⟩
                exact (hstack c (List.mem_cons_self _ _)).tail hxs
              · exact hstack x (List.mem_cons_of_mem _ hx)

theorem hasPathLoop_complete {g : VersatileDigraph K} (hwf : WF g)
    (target : K) :
    ∀ (fuel : Nat) (visited stack : List K),
      phi g visited stack < fuel →
      (∀ v ∈ visited, ∀ y, Step g v y → y ∈ visited ∨ y ∈ stack) →
      target ∉ visited →
      hasPathLoop g target fuel visited stack = false →
      ∀ x, (x ∈ visited ∨ x ∈ stack) → ¬ Reaches g x target := by
  intro fuel
  induction fuel with
  | zero => intro visited stack hphi; omega
  | succ fuel ih =>
      intro visited stack hphi hinv htgt hfalse x hx hreach
      cases stack with
      | nil =>
          have hcl : ∀ v ∈ visited, ∀ y, Step g v y → y ∈ visited := by
            intro v hv y hs
            rcases hinv v hv y hs with h | h
            · exact h
            · cases h
          rcases hx with hx | hx
          · exact htgt (reaches_mem_of_closed hcl hx hreach)
          · cases hx
      | cons c rest =>
          by_cases hct : c = target
          · rw [hasPathLoop, if_pos hct] at hfalse
            cases hfalse
          · by_cases hcv : c ∈ visited
            · rw [hasPathLoop, if_neg hct, if_pos hcv] at hfalse
              have hphi' : phi g visited rest < fuel := by
                rw [phi_skip] at hphi
                omega
              refine ih visited rest hphi' ?_ htgt hfalse x ?_ hreach
              · intro v hv y hs
                rcases hinv v hv y hs with h | h
                · exact Or.inl h
                · rcases List.mem_cons.1 h with rfl | h
                  · exact Or.inl hcv
                  · exact Or.inr h
              · rcases hx with hx | hx
                · exact Or.inl hx
                · rcases List.mem_cons.1 hx with rfl | hx
                  · exact Or.inl hcv
                  · exact Or.inr hx
            · rw [hasPathLoop, if_neg hct, if_neg hcv] at hfalse
              have hphi' : phi g (c :: visited)
                  (((g.successors c).filter
                    (fun s => s ∉ c :: visited)).reverse ++ rest) < fuel := by
                have := phi_visit_lt hwf hcv
                  (((g.successors c).filter
                    (fun s => s ∉ c :: visited)).reverse) rest
                  (by
                    rw [List.length_reverse]
                    exact List.length_filter_le _ _)
                omega
              refine ih _ _ hphi' ?_ ?_ hfalse x ?_ hreach
              · intro v hv y hs
                rcases List.mem_cons.1 hv with heq | hv
                · have hsc : Step g c y := heq ▸ hs
                  by_cases hy : y ∈ c :: visited
                  · exact Or.inl hy
                  · refine Or.inr (List.mem_append.2 (Or.inl ?_))
                    rw [List.mem_reverse]
                    exact List.mem_filter.2 ⟨hsc, by simpa using hy⟩
                · rcases hinv v hv y hs with h | h
                  · exact Or.inl (List.mem_cons_of_mem _ h)
                  · rcases List.mem_cons.1 h with rfl | h
                    · exact Or.inl (List.mem_cons_self _ _)
                    · exact Or.inr (List.mem_append.2 (Or.inr h))
              · intro hmem
                rcases List.mem_cons.1 hmem with rfl | hmem
                · exact hct rfl
                · exact htgt hmem
              · rcases hx with hx | hx
                · exact Or.inl (List.mem_cons_of_mem _ hx)
                · rcases List.mem_cons.1 hx with rfl | hx
                  · exact Or.inl (List.mem_cons_self _ _)
                  · exact Or.inr (List.mem_append.2 (Or.inr hx))

theorem sum_one_add (f : K → Nat) (l : List K) :
    (l.map (fun v => 1 + f v)).sum = l.length + (l.map f).sum := by
  induction l with
  | nil => rfl
  | cons a l ih =>
      rw [List.map_cons, List.sum_cons, ih, List.map_cons, List.sum_cons,
        List.length_cons]
      omega

theorem map_dictKeys_getD {B C : Type} (d : List (K × B))
    (hd : (dictKeys d).Nodup) (f : B → C) (x : B) :
    (dictKeys d).map (fun k => f (dictGetD d k x)) =
      d.map (fun p => f p.2) := by
  induction d with
  | nil => rfl
  | cons p rest ih =>
      rw [dictKeys_cons] at hd ⊢
      rw [List.map_cons, List.map_cons]
      rcases List.nodup_cons.1 hd with ⟨hp, hrest⟩
      congr 1
      · rw [dictGetD, dictGet?_cons_hit _ rfl]
        rfl
      · rw [← ih hrest]
        apply List.map_congr_left
        intro k hk
        have hkp : p.1 ≠ k := fun h => hp (h ▸ hk)
        rw [dictGetD, dictGet?_cons_miss _ hkp, dictGetD]

theorem sum_nodeWeight_all {g : VersatileDigraph K} (hwf : WF g) :
    (((dictKeys g.nodes).filter (fun v => decide (v ∉ ([] : List K)))).map
      (nodeWeight g)).sum =
    g.nodes.length + (g.adjacency.map (fun p => p.2.length)).sum := by
  have hfil : (dictKeys g.nodes).filter
      (fun v => decide (v ∉ ([] : List K))) = dictKeys g.nodes := by
    apply List.filter_eq_self.2
    intro a _
    simp
  rw [hfil]
  unfold nodeWeight
  rw [sum_one_add]
  have hlen : (dictKeys g.nodes).length = g.nodes.length := by
    unfold dictKeys; rw [List.length_map]
  rw [hlen]
  congr 1
  have hadjkeys : (dictKeys g.adjacency).Nodup := by
    rw [hwf.adj_keys]; exact hwf.nodes_nodup
  have := map_dictKeys_getD g.adjacency hadjkeys
    (fun l => (l.map (Prod.fst : K × String → K)).length) []
  rw [← hwf.adj_keys]
  unfold VersatileDigraph.successors
  rw [this]
  congr 1
  apply List.map_congr_left
  intro p _
  rw [List.length_map]

theorem phi_empty_singleton_lt {g : VersatileDigraph K} (hwf : WF g)
    (s : K) : phi g [] [s] < traverseFuel g := by
  unfold phi traverseFuel
  rw [sum_nodeWeight_all hwf]
  simp only [List.length_cons, List.length_nil]
  omega

/-- `DAG._has_path_dfs` decides reachability along adjacency entries, for
well-formed graphs and registered endpoints. -/
theorem has_path_dfs_iff {g : VersatileDigraph K} (hwf : WF g) {s t : K}
    (hs : s ∈ dictKeys g.nodes) (ht : t ∈ dictKeys g.nodes) :
    has_path_dfs g s t = true ↔ Reaches g s t := by
  unfold has_path_dfs
  rw [if_pos ⟨hs, ht⟩]
  by_cases hst : s = t
  · rw [if_pos hst]
    subst hst
    constructor
    · intro _
      exact Relation.ReflTransGen.refl
    · intro _
      rfl
  · rw [if_neg hst]
    constructor
    · intro h
      exact hasPathLoop_sound g s t _ [] [s]
        (by
          intro x hx
          rcases List.mem_cons.1 hx with rfl | hx
          · exact Relation.ReflTransGen.refl
          · cases hx) h
    · intro hreach
      by_contra hfalse
      rw [Bool.not_eq_true] at hfalse
      exact hasPathLoop_complete hwf t (traverseFuel g) [] [s]
        (phi_empty_singleton_lt hwf s)
        (by intro v hv; cases hv)
        (by intro h; cases h)
        hfalse s (Or.inr (List.mem_cons_self _ _)) hreach

/-! ## The acyclic variant -/

theorem step_ensureNodes (g : VersatileDigraph K) (s d u v : K)
    (sv dv : Int) :
    Step (ensureNodes g s d sv dv) u v ↔ Step g u v := by
  unfold Step
  rw [successors_ensureNodes]

theorem dagAddEdge_eq (g : VersatileDigraph K) (s d : K) (sv dv : Int)
    (nm : String) (w : Int) :
    dagAddEdge g s d sv dv nm w =
      if has_path_dfs (ensureNodes g s d sv dv) d s
      then (true, ensureNodes g s d sv dv)
      else (false,
        (ensureNodes g s d sv dv).add_edge s d sv dv nm w) := rfl

theorem reflTransGen_union_cases {α : Type} {R : α → α → Prop} {s d a b : α}
    (h : Relation.ReflTransGen (fun u v => R u v ∨ (u = s ∧ v = d)) a b) :
    Relation.ReflTransGen R a b ∨
      (Relation.ReflTransGen R a s ∧ Relation.ReflTransGen R d b) := by
  induction h with
  | refl => exact Or.inl Relation.ReflTransGen.refl
  | tail hab hstep ih =>
      rcases hstep with hR | ⟨heq1, heq2⟩
      · rcases ih with ih | ⟨ih1, ih2⟩
        · exact Or.inl (ih.tail hR)
        · exact Or.inr ⟨ih1, ih2.tail hR⟩
      · rcases ih with ih | ⟨ih1, ih2⟩
        · exact Or.inr ⟨heq1 ▸ ih, heq2 ▸ Relation.ReflTransGen.refl⟩
        · exact Or.inr ⟨ih1, heq2 ▸ Relation.ReflTransGen.refl⟩

theorem acyclic_insert {α : Type} {R : α → α → Prop} {s d : α}
    (hac : ∀ n, ¬ Relation.TransGen R n n)
    (hnp : ¬ Relation.ReflTransGen R d s) :
    ∀ n, ¬ Relation.TransGen (fun u v => R u v ∨ (u = s ∧ v = d)) n n := by
  intro n hcyc
  rcases Relation.TransGen.head'_iff.1 hcyc with ⟨c, hstep, hrest⟩
  rcases hstep with hR | ⟨heq1, heq2⟩
  · rcases reflTransGen_union_cases hrest with h | ⟨h1, h2⟩
    · exact hac n (Relation.TransGen.head' hR h)
    · exact hnp (((h2.tail hR).trans h1))
  · subst heq1
    subst heq2
    rcases reflTransGen_union_cases hrest with h | ⟨h1, h2⟩
    · exact hnp h
    · exact hnp h1

theorem transGen_of_iff {α : Type} {R S : α → α → Prop}
    (h : ∀ a b, R a b ↔ S a b) {a b : α} (ht : Relation.TransGen R a b) :
    Relation.TransGen S a b :=
  Relation.TransGen.mono (fun x y hxy => (h x y).1 hxy) ht

theorem dag_invariant_aux :
    ∀ (ops : List (Op K)) (g : VersatileDigraph K), WF g →
      (∀ n, ¬ Relation.TransGen (Step g) n n) →
      WF (ops.foldl applyDagOp g) ∧
        ∀ n, ¬ Relation.TransGen (Step (ops.foldl applyDagOp g)) n n := by
  intro ops
  induction ops with
  | nil => exact fun g hwf hac => ⟨hwf, hac⟩
  | cons op rest ih =>
      intro g hwf hac
      rw [List.foldl_cons]
      cases op with
      | addNode k v =>
          refine ih _ (hwf.add_node k v) ?_
          intro n hn
          exact hac n (transGen_of_iff (fun a b => step_add_node g k a b v) hn)
      | addEdge s d sv dv nm w =>
          have hwf2 : WF (ensureNodes g s d sv dv) :=
            hwf.ensureNodes s d sv dv
          have hac2 : ∀ n, ¬ Relation.TransGen
              (Step (ensureNodes g s d sv dv)) n n := by
            intro n hn
            exact hac n
              (transGen_of_iff (fun a b => step_ensureNodes g s d a b sv dv) hn)
          by_cases hpath : has_path_dfs (ensureNodes g s d sv dv) d s
          · have heq : applyDagOp g (Op.addEdge s d sv dv nm w) =
                ensureNodes g s d sv dv := by
              show (dagAddEdge g s d sv dv nm w).2 = _
              rw [dagAddEdge_eq, if_pos hpath]
            rw [heq]
            exact ih _ hwf2 hac2
          · have heq : applyDagOp g (Op.addEdge s d sv dv nm w) =
                (ensureNodes g s d sv dv).add_edge s d sv dv nm w := by
              show (dagAddEdge g s d sv dv nm w).2 = _
              rw [dagAddEdge_eq, if_neg hpath]
            rw [heq]
            refine ih _ (hwf2.add_edge s d sv dv nm w) ?_
            have hs : s ∈ dictKeys (ensureNodes g s d sv dv).nodes :=
              (nodes_keys_ensureNodes_mem g s d s sv dv).2 (Or.inr (Or.inl rfl))
            have hd : d ∈ dictKeys (ensureNodes g s d sv dv).nodes :=
              (nodes_keys_ensureNodes_mem g s d d sv dv).2 (Or.inr (Or.inr rfl))
            have hnr : ¬ Reaches (ensureNodes g s d sv dv) d s := by
              intro hr
              exact hpath ((has_path_dfs_iff hwf2 hd hs).2 hr)
            have hext := acyclic_insert (R := Step (ensureNodes g s d sv dv))
              (s := s) (d := d) hac2 hnr
            intro n hn
            exact hext n (transGen_of_iff
              (fun a b => step_add_edge (ensureNodes g s d sv dv) s d a b
                sv dv nm w) hn)

theorem wf_buildDag (ops : List (Op K)) : WF (buildDag ops) :=
  (dag_invariant_aux ops emptyGraph WF.empty
    (fun n hn => by
      rcases Relation.TransGen.head'_iff.1 hn with ⟨c, hstep, _⟩
      simp [Step, VersatileDigraph.successors, emptyGraph, dictGetD,
        dictGet?] at hstep)).1

/-- C4: every state of the acyclic variant reachable from the empty graph by
any sequence of `add_node` / `add_edge` calls (successful or rejected) has an
irreflexive transitive closure of its adjacency relation: no node reaches
itself along a non-empty path. -/
theorem dag_always_acyclic (ops : List (Op K)) :
    ∀ n : K, ¬ Relation.TransGen (Step (buildDag ops)) n n :=
  (dag_invariant_aux ops emptyGraph WF.empty
    (fun n hn => by
      rcases Relation.TransGen.head'_iff.1 hn with ⟨c, hstep, _⟩
      simp [Step, VersatileDigraph.successors, emptyGraph, dictGetD,
        dictGet?] at hstep)).2

theorem adjacency_add_node_append (g : VersatileDigraph K) (k : K)
    (v : Int) : ∃ ext, (g.add_node k v).adjacency = g.adjacency ++ ext := by
  unfold VersatileDigraph.add_node
  by_cases h : k ∈ dictKeys g.adjacency
  · exact ⟨[], by simp [h]⟩
  · exact ⟨[(k, [])], by simp [h]⟩

theorem adjacency_ensureNodes_append (g : VersatileDigraph K) (s d : K)
    (sv dv : Int) :
    ∃ ext, (ensureNodes g s d sv dv).adjacency = g.adjacency ++ ext := by
  unfold ensureNodes
  by_cases h1 : s ∈ dictKeys g.nodes
  · simp only [h1, if_true]
    by_cases h2 : d ∈ dictKeys g.nodes
    · exact ⟨[], by simp [h2]⟩
    · simp only [h2, if_false]
      exact adjacency_add_node_append g d dv
  · simp only [h1, if_false]
    by_cases h2 : d ∈ dictKeys (g.add_node s sv).nodes
    · simp only [h2, if_true]
      exact adjacency_add_node_append g s sv
    · simp only [h2, if_false]
      rcases adjacency_add_node_append g s sv with ⟨e1, he1⟩
      rcases adjacency_add_node_append (g.add_node s sv) d dv with ⟨e2, he2⟩
      exact ⟨e1 ++ e2, by rw [he2, he1, List.append_assoc]⟩

theorem edges_ensureNodes (g : VersatileDigraph K) (s d : K)
    (sv dv : Int) : (ensureNodes g s d sv dv).edges = g.edges := by
  unfold ensureNodes
  by_cases h1 : s ∈ dictKeys g.nodes <;> simp only [h1, if_true, if_false] <;>
    split <;> simp [edges_add_node]

/-- C2 (amended): on any state of the acyclic variant, if — after the
endpoint auto-creation that the code performs first — a path from `dst` to
`src` exists, then `add_edge` raises and the only mutation is that
auto-creation: the edge map is unchanged, every pre-existing adjacency
sequence is unchanged, every pre-existing node keeps its value, and the only
possibly-new node keys are `src` and `dst`. -/
theorem dag_add_edge_rejects (g : VersatileDigraph K) (ops : List (Op K))
    (hg : g = buildDag ops) (s d : K) (sv dv : Int) (nm : String) (w : Int)
    (hreach : Reaches (ensureNodes g s d sv dv) d s) :
    (dagAddEdge g s d sv dv nm w).1 = true ∧
    (dagAddEdge g s d sv dv nm w).2 = ensureNodes g s d sv dv ∧
    (ensureNodes g s d sv dv).edges = g.edges ∧
    (∀ k, k ∈ dictKeys g.adjacency →
      dictGet? (ensureNodes g s d sv dv).adjacency k =
        dictGet? g.adjacency k) ∧
    (∀ k, k ∈ dictKeys g.nodes →
      (ensureNodes g s d sv dv).get_node_value k = g.get_node_value k) ∧
    (∀ k, k ∈ dictKeys (ensureNodes g s d sv dv).nodes →
      k ∈ dictKeys g.nodes ∨ k = s ∨ k = d) := by
  have hwf : WF g := hg ▸ wf_buildDag ops
  have hwf2 : WF (ensureNodes g s d sv dv) := hwf.ensureNodes s d sv dv
  have hs : s ∈ dictKeys (ensureNodes g s d sv dv).nodes :=
    (nodes_keys_ensureNodes_mem g s d s sv dv).2 (Or.inr (Or.inl rfl))
  have hd : d ∈ dictKeys (ensureNodes g s d sv dv).nodes :=
    (nodes_keys_ensureNodes_mem g s d d sv dv).2 (Or.inr (Or.inr rfl))
  have hpath : has_path_dfs (ensureNodes g s d sv dv) d s = true :=
    (has_path_dfs_iff hwf2 hd hs).2 hreach
  refine ⟨?_, ?_, edges_ensureNodes g s d sv dv, ?_, ?_, ?_⟩
  · rw [dagAddEdge_eq, if_pos hpath]
  · rw [dagAddEdge_eq, if_pos hpath]
  · intro k hk
    rcases adjacency_ensureNodes_append g s d sv dv with ⟨ext, hext⟩
    rw [hext, dictGet?_append_left _ hk]
  · intro k hk
    exact get_node_value_ensureNodes_of_mem sv dv hk
  · intro k hk
    exact (nodes_keys_ensureNodes_mem g s d k sv dv).1 hk

/-- Witness for C2 at a concrete input: in the acyclic graph holding only the
edge A→B, requesting `add_edge("B","A")` is rejected. -/
theorem dag_add_edge_rejects_witness :
    (dagAddEdge (buildDag [Op.addEdge "A" "B" 0 0 "" 0]) "B" "A"
      0 0 "" 0).1 = true :=
  (dag_add_edge_rejects (buildDag [Op.addEdge "A" "B" 0 0 "" 0])
    [Op.addEdge "A" "B" 0 0 "" 0] rfl "B" "A" 0 0 "" 0
    (Relation.ReflTransGen.single (by decide))).1

/-- C2 counterexample: the claim's "no mutation at all" fails — a rejected
self-loop `add_edge("a","a")` on an empty acyclic graph still creates the
node `a`, so the node set is not identical before and after the call. -/
theorem dag_self_loop_mutates :
    (dagAddEdge (emptyGraph : VersatileDigraph String) "a" "a"
      0 0 "" 0).1 = true ∧
    (dagAddEdge (emptyGraph : VersatileDigraph String) "a" "a"
      0 0 "" 0).2.nodes ≠ (emptyGraph : VersatileDigraph String).nodes := by
  decide

/-! ## Correctness of `dfs` -/

theorem dfsLoop_spec {g : VersatileDigraph K} (hwf : WF g) (start : K) :
    ∀ (fuel : Nat) (visited stack : List K),
      phi g visited stack < fuel →
      (∀ x ∈ stack, Reaches g start x) →
      (∀ x ∈ visited, Reaches g start x) →
      (∀ v ∈ visited, ∀ y, Step g v y → y ∈ visited ∨ y ∈ stack) →
      (dfsLoop g fuel visited stack).Nodup ∧
      (∀ x ∈ dfsLoop g fuel visited stack, x ∉ visited) ∧
      (∀ x ∈ dfsLoop g fuel visited stack, Reaches g start x) ∧
      (∀ x, (x ∈ visited ∨ x ∈ stack) → ∀ y, Reaches g x y →
        y ∈ visited ∨ y ∈ dfsLoop g fuel visited stack) := by
  intro fuel
  induction fuel with
  | zero => intro visited stack hphi; omega
  | succ fuel ih =>
      intro visited stack hphi hstack hvis hinv
      cases stack with
      | nil =>
          have hout : dfsLoop g (fuel + 1) visited [] = [] := rfl
          rw [hout]
          have hcl : ∀ v ∈ visited, ∀ y, Step g v y → y ∈ visited := by
            intro v hv y hs
            rcases hinv v hv y hs with h | h
            · exact h
            · cases h
          refine ⟨List.nodup_nil, by simp, by simp, ?_⟩
          intro x hx y hy
          rcases hx with hx | hx
          · exact Or.inl (reaches_mem_of_closed hcl hx hy)
          · cases hx
      | cons c rest =>
          by_cases hcv : c ∈ visited
          · have hout : dfsLoop g (fuel + 1) visited (c :: rest) =
                dfsLoop g fuel visited rest := by
              rw [dfsLoop, if_pos hcv]
            rw [hout]
            have hphi' : phi g visited rest < fuel := by
              rw [phi_skip] at hphi
              omega
            rcases ih visited rest hphi'
              (fun x hx => hstack x (List.mem_cons_of_mem _ hx)) hvis
              (fun v hv y hs => by
                rcases hinv v hv y hs with h | h
                · exact Or.inl h
                · rcases List.mem_cons.1 h with heq | h
                  · exact Or.inl (heq ▸ hcv)
                  · exact Or.inr h) with ⟨ha, hb, hc, hd⟩
            refine ⟨ha, hb, hc, ?_⟩
            intro x hx y hy
            rcases hx with hx | hx
            · exact hd x (Or.inl hx) y hy
            · rcases List.mem_cons.1 hx with heq | hx
              · exact hd x (Or.inl (heq ▸ hcv)) y hy
              · exact hd x (Or.inr hx) y hy
          · have hout : dfsLoop g (fuel + 1) visited (c :: rest) =
                c :: dfsLoop g fuel (c :: visited)
                  (((g.successors c).filter
                    (fun s => s ∉ c :: visited)) ++ rest) := by
              rw [dfsLoop, if_neg hcv]
            have hreach_c : Reaches g start c :=
              hstack c (List.mem_cons_self _ _)
            have hphi' : phi g (c :: visited)
                (((g.successors c).filter
                  (fun s => s ∉ c :: visited)) ++ rest) < fuel := by
              have := phi_visit_lt hwf hcv
                ((g.successors c).filter (fun s => s ∉ c :: visited)) rest
                (List.length_filter_le _ _)
              omega
            rcases ih (c :: visited)
              (((g.successors c).filter (fun s => s ∉ c :: visited)) ++ rest)
              hphi'
              (by
                intro x hx
                rcases List.mem_append.1 hx with hx | hx
                · rcases List.mem_filter.1 hx with ⟨hxs, _⟩
                  exact hreach_c.tail hxs
                · exact hstack x (List.mem_cons_of_mem _ hx))
              (by
                intro x hx
                rcases List.mem_cons.1 hx with heq | hx
                · exact heq ▸ hreach_c
                · exact hvis x hx)
              (by
                intro v hv y hs
                rcases List.mem_cons.1 hv with heq | hv
                · have hsc : Step g c y := heq ▸ hs
                  by_cases hy : y ∈ c :: visited
                  · exact Or.inl hy
                  · exact Or.inr (List.mem_append.2 (Or.inl
                      (List.mem_filter.2 ⟨hsc, by simpa using hy⟩)))
                · rcases hinv v hv y hs with h | h
                  · exact Or.inl (List.mem_cons_of_mem _ h)
                  · rcases List.mem_cons.1 h with heq | h
                    · exact Or.inl (heq ▸ List.mem_cons_self _ _)
                    · exact Or.inr (List.mem_append.2 (Or.inr h)))
              with ⟨ha, hb, hc, hd⟩
            rw [hout]
            refine ⟨?_, ?_, ?_, ?_⟩
            · refine List.Nodup.cons ?_ ha
              intro hmem
              exact hb c hmem (List.mem_cons_self _ _)
            · intro x hx
              rcases List.mem_cons.1 hx with heq | hx
              · exact heq ▸ hcv
              · intro hxv
                exact hb x hx (List.mem_cons_of_mem _ hxv)
            · intro x hx
              rcases List.mem_cons.1 hx with heq | hx
              · exact heq ▸ hreach_c
              · exact hc x hx
            · intro x hx y hy
              have hcov : x ∈ c :: visited ∨
                  x ∈ ((g.successors c).filter
                    (fun s => s ∉ c :: visited)) ++ rest := by
                rcases hx with hx | hx
                · exact Or.inl (List.mem_cons_of_mem _ hx)
                · rcases List.mem_cons.1 hx with heq | hx
                  · exact Or.inl (heq ▸ List.mem_cons_self _ _)
                  · exact Or.inr (List.mem_append.2 (Or.inr hx))
              rcases hd x hcov y hy with h | h
              · rcases List.mem_cons.1 h with heq | h
                · exact Or.inr (heq ▸ List.mem_cons_self _ _)
                · exact Or.inl h
              · exact Or.inr (List.mem_cons_of_mem _ h)

theorem phi_start_lt {g : VersatileDigraph K} (hwf : WF g) {s : K}
    (hs : s ∈ dictKeys g.nodes) :
    phi g [s] (g.successors s) < traverseFuel g := by
  have heq := @sum_filter_visit_of_mem _ _ _ hwf.nodes_nodup _ hs []
    (by simp) (nodeWeight g)
  have hall := sum_nodeWeight_all hwf
  have hw : nodeWeight g s = 1 + (g.successors s).length := rfl
  unfold phi traverseFuel
  omega

theorem phi_start_pair_lt {g : VersatileDigraph K} (hwf : WF g) {s : K}
    (hs : s ∈ dictKeys g.nodes) :
    phi g [s] [s] < traverseFuel g := by
  have heq := @sum_filter_visit_of_mem _ _ _ hwf.nodes_nodup _ hs []
    (by simp) (nodeWeight g)
  have hall := sum_nodeWeight_all hwf
  have hw : nodeWeight g s = 1 + (g.successors s).length := rfl
  unfold phi traverseFuel
  simp only [List.length_cons, List.length_nil]
  omega

theorem dfs_spec {g : VersatileDigraph K} (hwf : WF g) {s : K}
    (hs : s ∈ dictKeys g.nodes) :
    (dfs g s).Nodup ∧
      ∀ n, n ∈ dfs g s ↔ (Reaches g s n ∧ n ≠ s) := by
  have hout : dfs g s =
      dfsLoop g (traverseFuel g) [s] (g.successors s) := by
    unfold dfs
    rw [if_pos hs]
  rcases dfsLoop_spec hwf s (traverseFuel g) [s] (g.successors s)
    (phi_start_lt hwf hs)
    (fun x hx => Relation.ReflTransGen.single hx)
    (by
      intro x hx
      rcases List.mem_cons.1 hx with heq | hx
      · exact heq ▸ Relation.ReflTransGen.refl
      · cases hx)
    (by
      intro v hv y hstep
      rcases List.mem_cons.1 hv with heq | hv
      · exact Or.inr (heq ▸ hstep)
      · cases hv) with ⟨ha, hb, hc, hd⟩
  rw [hout]
  refine ⟨ha, ?_⟩
  intro n
  constructor
  · intro hn
    refine ⟨hc n hn, ?_⟩
    intro heq
    exact hb n hn (heq ▸ List.mem_cons_self _ _)
  · rintro ⟨hreach, hne⟩
    rcases hd s (Or.inl (List.mem_cons_self _ _)) n hreach with h | h
    · rcases List.mem_cons.1 h with heq | h
      · exact absurd heq hne
      · cases h
    · exact h

theorem bfsVisit_eq :
    ∀ (succs visited queue out : List K),
      bfsVisit visited queue out succs =
        ((freshList visited succs).reverse ++ visited,
         queue ++ freshList visited succs,
         out ++ freshList visited succs) := by
  intro succs
  induction succs with
  | nil => intro visited queue out; simp [bfsVisit, freshList]
  | cons s rest ih =>
      intro visited queue out
      by_cases hs : s ∈ visited
      · rw [show bfsVisit visited queue out (s :: rest) =
            bfsVisit visited queue out rest by rw [bfsVisit, if_pos hs],
          show freshList visited (s :: rest) = freshList visited rest by
            rw [freshList, if_pos hs]]
        exact ih visited queue out
      · rw [show bfsVisit visited queue out (s :: rest) =
            bfsVisit (s :: visited) (queue ++ [s]) (out ++ [s]) rest by
            rw [bfsVisit, if_neg hs],
          show freshList visited (s :: rest) =
            s :: freshList (s :: visited) rest by
            rw [freshList, if_neg hs],
          ih (s :: visited) (queue ++ [s]) (out ++ [s])]
        refine Prod.ext ?_ (Prod.ext ?_ ?_) <;> simp

theorem freshList_sub :
    ∀ (succs visited : List K) (x : K), x ∈ freshList visited succs →
      x ∈ succs ∧ x ∉ visited := by
  intro succs
  induction succs with
  | nil => intro visited x hx; cases hx
  | cons s rest ih =>
      intro visited x hx
      by_cases hs : s ∈ visited
      · rw [freshList, if_pos hs] at hx
        rcases ih visited x hx with ⟨h1, h2⟩
        exact ⟨List.mem_cons_of_mem _ h1, h2⟩
      · rw [freshList, if_neg hs] at hx
        rcases List.mem_cons.1 hx with heq | hx
        · exact ⟨heq ▸ List.mem_cons_self _ _, heq ▸ hs⟩
        · rcases ih (s :: visited) x hx with ⟨h1, h2⟩
          exact ⟨List.mem_cons_of_mem _ h1,
            fun hv => h2 (List.mem_cons_of_mem _ hv)⟩

theorem freshList_nodup :
    ∀ (succs visited : List K), (freshList visited succs).Nodup := by
  intro succs
  induction succs with
  | nil => intro visited; exact List.nodup_nil
  | cons s rest ih =>
      intro visited
      by_cases hs : s ∈ visited
      · rw [freshList, if_pos hs]; exact ih visited
      · rw [freshList, if_neg hs]
        refine List.Nodup.cons ?_ (ih (s :: visited))
        intro hmem
        exact (freshList_sub rest (s :: visited) s hmem).2
          (List.mem_cons_self _ _)

theorem freshList_covers :
    ∀ (succs visited : List K) (x : K), x ∈ succs →
      x ∈ visited ∨ x ∈ freshList visited succs := by
  intro succs
  induction succs with
  | nil => intro visited x hx; cases hx
  | cons s rest ih =>
      intro visited x hx
      by_cases hs : s ∈ visited
      · rw [freshList, if_pos hs]
        rcases List.mem_cons.1 hx with heq | hx
        · exact Or.inl (heq ▸ hs)
        · exact ih visited x hx
      · rw [freshList, if_neg hs]
        rcases List.mem_cons.1 hx with heq | hx
        · exact Or.inr (heq ▸ List.mem_cons_self _ _)
        · rcases ih (s :: visited) x hx with h | h
          · rcases List.mem_cons.1 h with heq | h
            · exact Or.inr (heq ▸ List.mem_cons_self _ _)
            · exact Or.inl h
          · exact Or.inr (List.mem_cons_of_mem _ h)

theorem phi_fresh_le {g : VersatileDigraph K} (hwf : WF g) :
    ∀ (fl visited queue : List K),
      (∀ f ∈ fl, f ∈ dictKeys g.nodes) → fl.Nodup →
      (∀ f ∈ fl, f ∉ visited) →
      phi g (fl.reverse ++ visited) (queue ++ fl) ≤ phi g visited queue := by
  intro fl
  induction fl with
  | nil => intro visited queue _ _ _; simp
  | cons f fl ih =>
      intro visited queue hmem hnd hfv
      have hshape1 : (f :: fl).reverse ++ visited =
          fl.reverse ++ (f :: visited) := by
        rw [List.reverse_cons, List.append_assoc]
        rfl
      have hshape2 : queue ++ f :: fl = (queue ++ [f]) ++ fl := by
        rw [List.append_assoc]
        rfl
      rw [hshape1, hshape2]
      have hstep := ih (f :: visited) (queue ++ [f])
        (fun x hx => hmem x (List.mem_cons_of_mem _ hx))
        (List.Nodup.of_cons hnd)
        (by
          intro x hx hxv
          rcases List.mem_cons.1 hxv with heq | hxv
          · exact (List.nodup_cons.1 hnd).1 (heq ▸ hx)
          · exact hfv x (List.mem_cons_of_mem _ hx) hxv)
      refine hstep.trans ?_
      have heq := sum_filter_visit_of_mem hwf.nodes_nodup
        (hmem f (List.mem_cons_self _ _)) (hfv f (List.mem_cons_self _ _))
        (nodeWeight g)
      have hw : nodeWeight g f = 1 + (g.successors f).length := rfl
      unfold phi
      rw [List.length_append, List.length_cons, List.length_nil]
      omega

theorem bfsLoop_spec {g : VersatileDigraph K} (hwf : WF g) (start : K) :
    ∀ (fuel : Nat) (visited queue out : List K),
      phi g visited queue < fuel →
      (∀ x ∈ queue, x ∈ visited) →
      (∀ x ∈ visited, Reaches g start x) →
      (∀ v ∈ visited, v ∉ queue → ∀ y, Step g v y → y ∈ visited) →
      ∃ delta, bfsLoop g fuel visited queue out = out ++ delta ∧
        delta.Nodup ∧ (∀ x ∈ delta, x ∉ visited) ∧
        (∀ x ∈ delta, Reaches g start x) ∧
        (∀ x ∈ visited, ∀ y, Reaches g x y → y ∈ visited ∨ y ∈ delta) := by
  intro fuel
  induction fuel with
  | zero => intro visited queue out hphi; omega
  | succ fuel ih =>
      intro visited queue out hphi hq hvis hcl
      cases queue with
      | nil =>
          refine ⟨[], by simp [bfsLoop], List.nodup_nil, by simp, by simp, ?_⟩
          intro x hx y hy
          exact Or.inl (reaches_mem_of_closed
            (fun v hv => hcl v hv (fun h => by cases h)) hx hy)
      | cons c rest =>
          have hcvis : c ∈ visited := hq c (List.mem_cons_self _ _)
          have hcreach : Reaches g start c := hvis c hcvis
          have hout : bfsLoop g (fuel + 1) visited (c :: rest) out =
              bfsLoop g fuel
                ((freshList visited (g.successors c)).reverse ++ visited)
                (rest ++ freshList visited (g.successors c))
                (out ++ freshList visited (g.successors c)) := by
            rw [bfsLoop, bfsVisit_eq]
          set fl := freshList visited (g.successors c) with hfl
          have hflsub : ∀ x ∈ fl, x ∈ g.successors c ∧ x ∉ visited :=
            fun x hx => freshList_sub _ _ x hx
          have hflN : ∀ x ∈ fl, x ∈ dictKeys g.nodes := by
            intro x hx
            exact hwf.step_dst_mem (hflsub x hx).1
          have hphi' : phi g (fl.reverse ++ visited) (rest ++ fl) < fuel := by
            have h1 := phi_fresh_le hwf fl visited rest hflN
              (freshList_nodup _ _) (fun x hx => (hflsub x hx).2)
            have h2 : phi g visited (c :: rest) = phi g visited rest + 1 :=
              phi_skip g visited c rest
            omega
          have hmem' : ∀ x, x ∈ fl.reverse ++ visited ↔
              x ∈ fl ∨ x ∈ visited := by
            intro x
            rw [List.mem_append, List.mem_reverse]
          rcases ih (fl.reverse ++ visited) (rest ++ fl) (out ++ fl) hphi'
            (by
              intro x hx
              rcases List.mem_append.1 hx with hx | hx
              · exact (hmem' x).2 (Or.inr (hq x (List.mem_cons_of_mem _ hx)))
              · exact (hmem' x).2 (Or.inl hx))
            (by
              intro x hx
              rcases (hmem' x).1 hx with hx | hx
              · exact hcreach.tail (hflsub x hx).1
              · exact hvis x hx)
            (by
              intro v hv hvq y hs
              rcases (hmem' v).1 hv with hv | hv
              · exact absurd (List.mem_append.2 (Or.inr hv)) hvq
              · by_cases hvc : v = c
                · subst hvc
                  rcases freshList_covers (g.successors v) visited y hs
                    with h | h
                  · exact (hmem' y).2 (Or.inr h)
                  · exact (hmem' y).2 (Or.inl h)
                · have hvrest : v ∉ rest := by
                    intro h
                    exact hvq (List.mem_append.2 (Or.inl h))
                  have hvold : v ∉ c :: rest := by
                    intro h
                    rcases List.mem_cons.1 h with heq | h
                    · exact hvc heq
                    · exact hvrest h
                  exact (hmem' y).2 (Or.inr (hcl v hv hvold y hs)))
            with ⟨delta, heq, hnd, hfreshd, hreachd, habs⟩
          refine ⟨fl ++ delta, ?_, ?_, ?_, ?_, ?_⟩
          · rw [hout, heq, List.append_assoc]
          · rw [List.nodup_append]
            refine ⟨freshList_nodup _ _, hnd, ?_⟩
            intro x hx hxd
            exact hfreshd x hxd ((hmem' x).2 (Or.inl hx))
          · intro x hx
            rcases List.mem_append.1 hx with hx | hx
            · exact (hflsub x hx).2
            · intro hxv
              exact hfreshd x hx ((hmem' x).2 (Or.inr hxv))
          · intro x hx
            rcases List.mem_append.1 hx with hx | hx
            · exact hcreach.tail (hflsub x hx).1
            · exact hreachd x hx
          · intro x hx y hy
            rcases habs x ((hmem' x).2 (Or.inr hx)) y hy with h | h
            · rcases (hmem' y).1 h with h | h
              · exact Or.inr (List.mem_append.2 (Or.inl h))
              · exact Or.inl h
            · exact Or.inr (List.mem_append.2 (Or.inr h))

theorem bfs_spec {g : VersatileDigraph K} (hwf : WF g) {s : K}
    (hs : s ∈ dictKeys g.nodes) :
    (bfs g s).Nodup ∧
      ∀ n, n ∈ bfs g s ↔ (Reaches g s n ∧ n ≠ s) := by
  have hout : bfs g s = bfsLoop g (traverseFuel g) [s] [s] [] := by
    unfold bfs
    rw [if_pos hs]
  rcases bfsLoop_spec hwf s (traverseFuel g) [s] [s] []
    (phi_start_pair_lt hwf hs)
    (fun x hx => hx)
    (by
      intro x hx
      rcases List.mem_cons.1 hx with heq | hx
      · exact heq ▸ Relation.ReflTransGen.refl
      · cases hx)
    (by
      intro v hv hvq
      exact absurd hv hvq)
    with ⟨delta, heq, hnd, hfresh, hreach, habs⟩
  rw [hout, heq, List.nil_append]
  refine ⟨hnd, ?_⟩
  intro n
  constructor
  · intro hn
    refine ⟨hreach n hn, ?_⟩
    intro hne
    exact hfresh n hn (hne ▸ List.mem_cons_self _ _)
  · rintro ⟨hr, hne⟩
    rcases habs s (List.mem_cons_self _ _) n hr with h | h
    · rcases List.mem_cons.1 h with heq | h
      · exact absurd heq hne
      · cases h
    · exact h

/-- C5: for every API-built graph and start node `s` present in it, each node
reachable from `s` and distinct from `s` appears exactly once in `dfs(s)` and
exactly once in `bfs(s)`; `s` itself is never yielded; unreachable nodes
never appear.  Both sequences are `List`s produced by fuel whose sufficiency
is proved in `dfsLoop_spec` / `bfsLoop_spec`, so they are finite even on
cyclic graphs. -/
theorem traversals_visit_reachable_exactly_once (ops : List (Op K)) (s : K)
    (hs : s ∈ dictKeys (buildGraph ops).nodes) :
    ((∀ n, Reaches (buildGraph ops) s n → n ≠ s →
        List.count n (dfs (buildGraph ops) s) = 1) ∧
      s ∉ dfs (buildGraph ops) s ∧
      (∀ n, n ∈ dfs (buildGraph ops) s →
        Reaches (buildGraph ops) s n ∧ n ≠ s)) ∧
    ((∀ n, Reaches (buildGraph ops) s n → n ≠ s →
        List.count n (bfs (buildGraph ops) s) = 1) ∧
      s ∉ bfs (buildGraph ops) s ∧
      (∀ n, n ∈ bfs (buildGraph ops) s →
        Reaches (buildGraph ops) s n ∧ n ≠ s)) := by
  have hwf : WF (buildGraph ops) := wf_buildGraph ops
  rcases dfs_spec hwf hs with ⟨hdn, hdm⟩
  rcases bfs_spec hwf hs with ⟨hbn, hbm⟩
  refine ⟨⟨?_, ?_, ?_⟩, ?_, ?_, ?_⟩
  · intro n hr hne
    exact List.count_eq_one_of_mem hdn ((hdm n).2 ⟨hr, hne⟩)
  · intro hmem
    exact ((hdm s).1 hmem).2 rfl
  · exact fun n hn => (hdm n).1 hn
  · intro n hr hne
    exact List.count_eq_one_of_mem hbn ((hbm n).2 ⟨hr, hne⟩)
  · intro hmem
    exact ((hbm s).1 hmem).2 rfl
  · exact fun n hn => (hbm n).1 hn

/-- Witness for C5 at a concrete input: in the graph with the single edge
A→B, node B is yielded exactly once by each traversal from A. -/
theorem traversals_visit_reachable_exactly_once_witness :
    ("A" ∈ dictKeys (buildGraph [Op.addEdge "A" "B" 0 0 "" 0]).nodes) ∧
    List.count "B" (dfs (buildGraph [Op.addEdge "A" "B" 0 0 "" 0]) "A")
      = 1 ∧
    List.count "B" (bfs (buildGraph [Op.addEdge "A" "B" 0 0 "" 0]) "A")
      = 1 :=
  ⟨by decide,
    (traversals_visit_reachable_exactly_once
        [Op.addEdge "A" "B" 0 0 "" 0] "A" (by decide)).1.1 "B"
      (Relation.ReflTransGen.single (by decide)) (by decide),
    (traversals_visit_reachable_exactly_once
        [Op.addEdge "A" "B" 0 0 "" 0] "A" (by decide)).2.1 "B"
      (Relation.ReflTransGen.single (by decide)) (by decide)⟩

/-! ## Degree bookkeeping -/

theorem dictInsert_idem {B : Type} (d : List (K × B)) (k : K) (v : B) :
    dictInsert (dictInsert d k v) k v = dictInsert d k v := by
  induction d with
  | nil => simp [dictInsert]
  | cons p rest ih =>
      by_cases hpk : p.1 = k
      · rw [dictInsert_cons_hit _ _ hpk, dictInsert_cons_hit _ _ rfl]
      · rw [dictInsert_cons_miss _ _ hpk, dictInsert_cons_miss _ _ hpk, ih]

theorem outdegree_eq_length_successors (g : VersatileDigraph K) (x : K) :
    g.outdegree x = (g.successors x).length := by
  unfold VersatileDigraph.outdegree VersatileDigraph.successors
  rw [List.length_map]

theorem outdegree_add_edge_self (g : VersatileDigraph K) (u v : K)
    (sv dv : Int) (nm : String) (w : Int) :
    (g.add_edge u v sv dv nm w).outdegree u = g.outdegree u + 1 := by
  rw [outdegree_eq_length_successors, successors_add_edge, if_pos rfl,
    List.length_append, outdegree_eq_length_successors]
  rfl

theorem indegree_eq_keys_count (g : VersatileDigraph K) (v : K) :
    g.indegree v = ((dictKeys g.edges).filter (fun p => p.2 = v)).length := by
  unfold VersatileDigraph.indegree
  induction g.edges with
  | nil => rfl
  | cons p rest ih =>
      rw [dictKeys_cons]
      by_cases hp : p.1.2 = v
      · simp only [List.filter_cons]
        rw [if_pos (by simpa using hp), if_pos (by simpa using hp)]
        simpa using ih
      · simp only [List.filter_cons]
        rw [if_neg (by simpa using hp), if_neg (by simpa using hp)]
        exact ih

theorem indegree_add_edge (g : VersatileDigraph K) (u v : K)
    (sv dv : Int) (nm : String) (w : Int) :
    (g.add_edge u v sv dv nm w).indegree v =
      if (u, v) ∈ dictKeys g.edges then g.indegree v
      else g.indegree v + 1 := by
  rw [indegree_eq_keys_count, indegree_eq_keys_count, edges_add_edge]
  by_cases h : (u, v) ∈ dictKeys g.edges
  · rw [if_pos h, dictKeys_dictInsert_of_mem _ h]
  · rw [if_neg h, dictKeys_dictInsert_of_not_mem _ h, List.filter_append,
      List.length_append]
    simp

theorem indegree_add_edge_other (g : VersatileDigraph K) {u v x : K}
    (sv dv : Int) (nm : String) (w : Int) (hx : x ≠ v) :
    (g.add_edge u v sv dv nm w).indegree x = g.indegree x := by
  rw [indegree_eq_keys_count, indegree_eq_keys_count, edges_add_edge]
  by_cases h : (u, v) ∈ dictKeys g.edges
  · rw [dictKeys_dictInsert_of_mem _ h]
  · rw [dictKeys_dictInsert_of_not_mem _ h, List.filter_append,
      List.length_append]
    simp [Ne.symm hx]

/-! ## The claims -/

/-- C9: calling `add_node(k, val)` twice in succession leaves the graph in
exactly the same state as calling it once — in particular the node count,
the value stored for `k`, and `k`'s adjacency sequence are unchanged by the
second call. -/
theorem add_node_idempotent (g : VersatileDigraph K) (k : K) (v : Int) :
    (g.add_node k v).add_node k v = g.add_node k v := by
  unfold VersatileDigraph.add_node
  by_cases h : k ∈ dictKeys g.adjacency
  · simp [h, dictInsert_idem]
  · simp only [h, if_false]
    rw [dictInsert_idem]
    have hk : k ∈ dictKeys (g.adjacency ++ [(k, [])]) := by
      rw [dictKeys_append]; simp [dictKeys_cons]
    simp [hk]

/-- C10: `outdegree` is read off the adjacency sequence, which gains one
entry on every `add_edge` call, while `indegree` is read off the
edge-metadata map, which stores at most one record per ordered pair; hence
repeating `add_edge(u, v)` on a fresh store leaves `indegree(v) = 1` while
`outdegree(u) = 2`. -/
theorem degree_asymmetry_on_repeated_edges :
    (∀ (g : VersatileDigraph K) (u v : K) (sv dv : Int) (nm : String)
      (w : Int),
      (g.add_edge u v sv dv nm w).outdegree u = g.outdegree u + 1) ∧
    (∀ (g : VersatileDigraph K) (u v : K) (sv dv : Int) (nm : String)
      (w : Int),
      (g.add_edge u v sv dv nm w).indegree v =
        if (u, v) ∈ dictKeys g.edges then g.indegree v
        else g.indegree v + 1) ∧
    (∀ u v : K,
      ((emptyGraph.add_edge u v 0 0 "" 0).add_edge u v 0 0 "" 0).outdegree u
          = 2 ∧
      ((emptyGraph.add_edge u v 0 0 "" 0).add_edge u v 0 0 "" 0).indegree v
          = 1) := by
  refine ⟨outdegree_add_edge_self, indegree_add_edge, ?_⟩
  intro u v
  constructor
  · rw [outdegree_add_edge_self, outdegree_add_edge_self]
    rfl
  · have h1 : ((emptyGraph : VersatileDigraph K).add_edge u v 0 0 "" 0).edges
        = dictInsert [] (u, v) ⟨0, ""⟩ := edges_add_edge _ u v 0 0 "" 0
    rw [indegree_add_edge, if_pos, indegree_add_edge, if_neg]
    · rfl
    · intro h; cases h
    · rw [h1]
      exact (mem_dictKeys_dictInsert _ _ _ _).2 (Or.inr rfl)

/-- C8: `add_edge` never overwrites the stored value of a node that already
exists — the supplied default values are written only when the corresponding
endpoint is created by this very call. -/
theorem add_edge_preserves_node_values (g : VersatileDigraph K) (s d : K)
    (sv dv : Int) (nm : String) (w : Int) :
    (s ∈ dictKeys g.nodes →
      (g.add_edge s d sv dv nm w).get_node_value s = g.get_node_value s) ∧
    (d ∈ dictKeys g.nodes →
      (g.add_edge s d sv dv nm w).get_node_value d = g.get_node_value d) ∧
    (s ∉ dictKeys g.nodes →
      (g.add_edge s d sv dv nm w).get_node_value s = sv) ∧
    (d ∉ dictKeys g.nodes → d ≠ s →
      (g.add_edge s d sv dv nm w).get_node_value d = dv) := by
  refine ⟨fun h => get_node_value_add_edge_of_mem sv dv nm w h,
    fun h => get_node_value_add_edge_of_mem sv dv nm w h, ?_, ?_⟩
  · intro h
    show dictGetD (g.add_edge s d sv dv nm w).nodes s 0 = sv
    rw [nodes_add_edge]
    exact get_node_value_ensureNodes_fresh_src d sv dv h
  · intro h hds
    show dictGetD (g.add_edge s d sv dv nm w).nodes d 0 = dv
    rw [nodes_add_edge]
    exact get_node_value_ensureNodes_fresh_dst sv dv h hds

/-- Witness for C8 at a concrete input: node `a` exists with value 5; an
`add_edge("a","b", 7, 9)` call keeps `a`'s value 5 and creates `b` with 9. -/
theorem add_edge_preserves_node_values_witness :
    ("a" ∈ dictKeys (buildGraph [Op.addNode "a" 5]).nodes) ∧
    ((buildGraph [Op.addNode "a" 5]).add_edge "a" "b" 7 9 "" 0
        ).get_node_value "a"
      = (buildGraph [Op.addNode "a" 5]).get_node_value "a" ∧
    ((buildGraph [Op.addNode "a" 5]).add_edge "a" "b" 7 9 "" 0
        ).get_node_value "b" = 9 :=
  ⟨by decide,
    (add_edge_preserves_node_values (buildGraph [Op.addNode "a" 5])
      "a" "b" 7 9 "" 0).1 (by decide),
    (add_edge_preserves_node_values (buildGraph [Op.addNode "a" 5])
      "a" "b" 7 9 "" 0).2.2.2 (by decide) (by decide)⟩

set_option maxRecDepth 40000 in
/-- C3 counterexample: on the clothing graph the code's `dfs("shirt")` does
*not* begin `pants, tie, jacket, belt, vest, socks, shoes` — after `belt` it
yields `shoes`, not `vest`. -/
theorem clothing_dfs_differs_from_claimed :
    (dfs clothing "shirt").take 7 ≠
      ["pants", "tie", "jacket", "belt", "vest", "socks", "shoes"] := by
  decide

set_option maxRecDepth 40000 in
/-- C3 (amended): the sequence produced by `dfs("shirt")` on the clothing
graph is exactly `pants, tie, jacket, belt, shoes, socks, vest`. -/
theorem clothing_dfs_order :
    dfs clothing "shirt" =
      ["pants", "tie", "jacket", "belt", "shoes", "socks", "vest"] := by
  decide

theorem nodupSucc_aux :
    ∀ (ops : List (Op K)) (g : VersatileDigraph K) (done : List (K × K)),
      (∀ u, (g.successors u).Nodup) →
      (∀ u v, Step g u v → (u, v) ∈ done) →
      (done ++ edgePairs ops).Nodup →
      ∀ u, ((ops.foldl applyOp g).successors u).Nodup := by
  intro ops
  induction ops with
  | nil => exact fun g done h _ _ => h
  | cons op rest ih =>
      intro g done hsucc hdone hnd
      rw [List.foldl_cons]
      cases op with
      | addNode k v =>
          refine ih (g.add_node k v) done ?_ ?_ ?_
          · intro u
            rw [successors_add_node]
            exact hsucc u
          · intro u x h
            exact hdone u x ((step_add_node g k u x v).1 h)
          · exact hnd
      | addEdge s d sv dv nm w =>
          have hpairs : edgePairs (Op.addEdge s d sv dv nm w :: rest) =
              (s, d) :: edgePairs rest := rfl
          rw [hpairs] at hnd
          have hshape : done ++ (s, d) :: edgePairs rest =
              (done ++ [(s, d)]) ++ edgePairs rest := by
            rw [List.append_assoc]
            rfl
          have hsd_done : (s, d) ∉ done := by
            intro hmem
            rcases List.nodup_append.1 hnd with ⟨_, _, hdisj⟩
            exact hdisj hmem (List.mem_cons_self _ _)
          refine ih (g.add_edge s d sv dv nm w) (done ++ [(s, d)]) ?_ ?_ ?_
          · intro u
            rw [successors_add_edge]
            by_cases hu : u = s
            · rw [if_pos hu]
              rw [List.nodup_append]
              refine ⟨hsucc s, List.nodup_singleton d, ?_⟩
              intro x hx hxd
              rcases List.mem_singleton.1 hxd with rfl
              exact hsd_done (hdone s x hx)
            · rw [if_neg hu]
              exact hsucc u
          · intro u x h
            rcases (step_add_edge g s d u x sv dv nm w).1 h with h | ⟨h1, h2⟩
            · exact List.mem_append.2 (Or.inl (hdone u x h))
            · subst h1
              subst h2
              exact List.mem_append.2 (Or.inr (List.mem_singleton.2 rfl))
          · rw [← hshape]
            exact hnd

theorem nodupSucc_buildGraph {ops : List (Op K)}
    (hnd : (edgePairs ops).Nodup) :
    ∀ u, ((buildGraph ops).successors u).Nodup := by
  refine nodupSucc_aux ops emptyGraph [] ?_ ?_ (by simpa using hnd)
  · intro u
    show (([] : List (K × String)).map Prod.fst).Nodup
    exact List.nodup_nil
  · intro u v h
    cases h

theorem inNbrs_nodup {g : VersatileDigraph K} (hwf : WF g) (v : K) :
    (inNbrs g v).Nodup :=
  hwf.nodes_nodup.filter _

theorem mem_inNbrs_iff {g : VersatileDigraph K} (hwf : WF g) (u v : K) :
    u ∈ inNbrs g v ↔ Step g u v := by
  unfold inNbrs
  rw [List.mem_filter]
  constructor
  · intro ⟨_, h⟩
    exact of_decide_eq_true h
  · intro h
    exact ⟨hwf.step_src_mem h, decide_eq_true h⟩

theorem indegree_eq_inNbrs_length {g : VersatileDigraph K} (hwf : WF g)
    (v : K) : g.indegree v = (inNbrs g v).length := by
  rw [indegree_eq_keys_count]
  have hmapnd : (((dictKeys g.edges).filter (fun p => p.2 = v)).map
      Prod.fst).Nodup := by
    refine List.Nodup.map_on ?_ (hwf.edges_nodup.filter _)
    intro x hx y hy hxy
    rcases List.mem_filter.1 hx with ⟨_, hx2⟩
    rcases List.mem_filter.1 hy with ⟨_, hy2⟩
    have hx2' : x.2 = v := by simpa using hx2
    have hy2' : y.2 = v := by simpa using hy2
    exact Prod.ext hxy (hx2'.trans hy2'.symm)
  have hperm : List.Perm
      (((dictKeys g.edges).filter (fun p => p.2 = v)).map Prod.fst)
      (inNbrs g v) := by
    refine (List.subperm_of_subset hmapnd ?_).antisymm
      (List.subperm_of_subset (inNbrs_nodup hwf v) ?_)
    · intro u hu
      rcases List.mem_map.1 hu with ⟨p, hp, hpu⟩
      rcases List.mem_filter.1 hp with ⟨hpk, hp2⟩
      have hp2' : p.2 = v := by simpa using hp2
      rw [mem_inNbrs_iff hwf]
      have : (u, v) ∈ dictKeys g.edges := by
        have : p = (u, v) := Prod.ext hpu hp2'
        exact this ▸ hpk
      exact (hwf.edges_iff u v).1 this
    · intro u hu
      rw [mem_inNbrs_iff hwf] at hu
      have hk : (u, v) ∈ dictKeys g.edges := (hwf.edges_iff u v).2 hu
      exact List.mem_map.2 ⟨(u, v), List.mem_filter.2 ⟨hk, by simp⟩, rfl⟩
  rw [← hperm.length_eq, List.length_map]

theorem inCount_append_singleton (g : VersatileDigraph K) (S : List K)
    (c v : K) :
    inCount g (S ++ [c]) v =
      inCount g S v + (if Step g c v then 1 else 0) := by
  unfold inCount
  rw [List.filter_append, List.length_append]
  by_cases h : Step g c v
  · simp [h]
  · simp [h]

theorem inCount_eq_of_all_in {g : VersatileDigraph K} (hwf : WF g)
    {S : List K} (hS : S.Nodup) {v : K}
    (hall : ∀ u, Step g u v → u ∈ S) :
    inCount g S v = (inNbrs g v).length := by
  have hperm : List.Perm (S.filter (fun u => decide (Step g u v)))
      (inNbrs g v) := by
    refine (List.subperm_of_subset (hS.filter _) ?_).antisymm
      (List.subperm_of_subset (inNbrs_nodup hwf v) ?_)
    · intro u hu
      rcases List.mem_filter.1 hu with ⟨_, hdec⟩
      exact (mem_inNbrs_iff hwf u v).2 (of_decide_eq_true hdec)
    · intro u hu
      rw [mem_inNbrs_iff hwf] at hu
      exact List.mem_filter.2 ⟨hall u hu, decide_eq_true hu⟩
  exact hperm.length_eq

theorem all_in_of_inCount_eq {g : VersatileDigraph K} (hwf : WF g)
    {S : List K} (hS : S.Nodup) {v : K}
    (heq : inCount g S v = (inNbrs g v).length) :
    ∀ u, Step g u v → u ∈ S := by
  have hsub : (S.filter (fun u => decide (Step g u v))).Subperm
      (inNbrs g v) := by
    refine List.subperm_of_subset (hS.filter _) ?_
    intro u hu
    rcases List.mem_filter.1 hu with ⟨_, hdec⟩
    exact (mem_inNbrs_iff hwf u v).2 (of_decide_eq_true hdec)
  have hperm := hsub.perm_of_length_le (le_of_eq heq.symm)
  intro u hu
  have humem : u ∈ inNbrs g v := (mem_inNbrs_iff hwf u v).2 hu
  rcases List.mem_filter.1 (hperm.mem_iff.2 humem) with ⟨h, _⟩
  exact h

theorem inCount_le {g : VersatileDigraph K} {S : List K}
    (hS : S.Nodup) (hsub : ∀ x ∈ S, x ∈ dictKeys g.nodes) (v : K) :
    inCount g S v ≤ (inNbrs g v).length := by
  refine List.Subperm.length_le (List.subperm_of_subset (hS.filter _) ?_)
  intro u hu
  rcases List.mem_filter.1 hu with ⟨huS, hdec⟩
  exact List.mem_filter.2 ⟨hsub u huS, hdec⟩

theorem dictGetD_dictInsert_self {B : Type} (d : List (K × B)) (k : K)
    (v v₀ : B) : dictGetD (dictInsert d k v) k v₀ = v := by
  rw [dictGetD, dictGet?_dictInsert_self]
  rfl

theorem dictGetD_dictInsert_ne {B : Type} (d : List (K × B)) {k x : K}
    (v v₀ : B) (h : x ≠ k) :
    dictGetD (dictInsert d k v) x v₀ = dictGetD d x v₀ := by
  rw [dictGetD, dictGet?_dictInsert_ne _ _ h, dictGetD]

theorem processSuccs_spec :
    ∀ (l : List K) (idg : List (K × Int)) (queue : List K),
      l.Nodup → (∀ v ∈ l, v ∈ dictKeys idg) →
      dictKeys (processSuccs idg queue l).1 = dictKeys idg ∧
      (∀ v ∈ l, dictGetD (processSuccs idg queue l).1 v 0 =
        dictGetD idg v 0 - 1) ∧
      (∀ v, v ∉ l → dictGetD (processSuccs idg queue l).1 v 0 =
        dictGetD idg v 0) ∧
      (processSuccs idg queue l).2 =
        queue ++ l.filter (fun v => decide (dictGetD idg v 0 = 1)) := by
  intro l
  induction l with
  | nil =>
      intro idg queue _ _
      exact ⟨rfl, by simp, fun v _ => rfl, by simp [processSuccs]⟩
  | cons c rest ih =>
      intro idg queue hnd hkeys
      have hck : c ∈ dictKeys idg := hkeys c (List.mem_cons_self _ _)
      have hcrest : c ∉ rest := (List.nodup_cons.1 hnd).1
      set d : Int := dictGetD idg c 0 - 1 with hd
      set idg' : List (K × Int) := dictInsert idg c d with hidg'
      set queue' : List K := if d = 0 then queue ++ [c] else queue
        with hqueue'
      have hstep : processSuccs idg queue (c :: rest) =
          processSuccs idg' queue' rest := rfl
      have hkeys' : dictKeys idg' = dictKeys idg :=
        dictKeys_dictInsert_of_mem d hck
      rcases ih idg' queue' (List.Nodup.of_cons hnd)
        (fun v hv => hkeys' ▸ hkeys v (List.mem_cons_of_mem _ hv))
        with ⟨h1, h2, h3, h4⟩
      refine ⟨?_, ?_, ?_, ?_⟩
      · rw [hstep, h1, hkeys']
      · intro v hv
        rcases List.mem_cons.1 hv with heq | hv
        · subst heq
          rw [hstep, h3 v hcrest, hidg', dictGetD_dictInsert_self]
        · rw [hstep, h2 v hv, hidg',
            dictGetD_dictInsert_ne _ _ _ (fun h => hcrest (by rw [← h]; exact hv))]
      · intro v hv
        have hvc : v ≠ c := fun h => hv (h ▸ List.mem_cons_self _ _)
        have hvrest : v ∉ rest := fun h => hv (List.mem_cons_of_mem _ h)
        rw [hstep, h3 v hvrest, hidg', dictGetD_dictInsert_ne _ _ _ hvc]
      · rw [hstep, h4]
        have hfil : rest.filter
            (fun v => decide (dictGetD idg' v 0 = 1)) =
            rest.filter (fun v => decide (dictGetD idg v 0 = 1)) := by
          apply List.filter_congr
          intro x hx
          rw [hidg',
            dictGetD_dictInsert_ne _ _ _ (fun h => hcrest (by rw [← h]; exact hx))]
        rw [hfil]
        by_cases hd0 : d = 0
        · have hc1 : dictGetD idg c 0 = 1 := by omega
          rw [hqueue', if_pos hd0]
          rw [show (c :: rest).filter
              (fun v => decide (dictGetD idg v 0 = 1)) =
              c :: rest.filter (fun v => decide (dictGetD idg v 0 = 1)) by
            rw [List.filter_cons, if_pos (by simpa using hc1)]]
          simp [List.append_assoc]
        · have hc1 : dictGetD idg c 0 ≠ 1 := by omega
          rw [hqueue', if_neg hd0]
          rw [show (c :: rest).filter
              (fun v => decide (dictGetD idg v 0 = 1)) =
              rest.filter (fun v => decide (dictGetD idg v 0 = 1)) by
            rw [List.filter_cons, if_neg (by simpa using hc1)]]

theorem kahnInv_step {g : VersatileDigraph K} (hwf : WF g)
    (hnds : ∀ u, (g.successors u).Nodup) {idg : List (K × Int)} {c : K}
    {q res : List K} (inv : KahnInv g idg (c :: q) res) :
    KahnInv g (processSuccs idg q (g.successors c)).1
      (processSuccs idg q (g.successors c)).2 (res ++ [c]) := by
  have hcq : c ∈ res ++ c :: q :=
    List.mem_append.2 (Or.inr (List.mem_cons_self _ _))
  have hcN : c ∈ dictKeys g.nodes := inv.subN c hcq
  have hres_nodup : res.Nodup := (List.nodup_append.1 inv.nodup).1
  have hcnotres : c ∉ res := by
    intro h
    exact (List.nodup_append.1 inv.nodup).2.2 h (List.mem_cons_self _ _)
  have hcall : ∀ u, Step g u c → u ∈ res :=
    (inv.iff4 c hcN).1 (Or.inr (List.mem_cons_self _ _))
  have hres'_nodup : (res ++ [c]).Nodup := by
    rw [List.nodup_append]
    exact ⟨hres_nodup, List.nodup_singleton c,
      fun a ha hac => hcnotres ((List.mem_singleton.1 hac) ▸ ha)⟩
  have hres'_sub : ∀ x ∈ res ++ [c], x ∈ dictKeys g.nodes := by
    intro x hx
    rcases List.mem_append.1 hx with hx | hx
    · exact inv.subN x (List.mem_append.2 (Or.inl hx))
    · exact (List.mem_singleton.1 hx) ▸ hcN
  obtain ⟨hk, hdec, hsame, hq⟩ := processSuccs_spec (g.successors c) idg q
    (hnds c)
    (fun v hv => by
      rw [inv.keys]
      exact hwf.step_dst_mem (show Step g c v from hv))
  set ne := (g.successors c).filter
    (fun v => decide (dictGetD idg v 0 = 1)) with hne
  have hne_succ : ∀ v ∈ ne, v ∈ g.successors c ∧ dictGetD idg v 0 = 1 := by
    intro v hv
    rcases List.mem_filter.1 hv with ⟨h1, h2⟩
    exact ⟨h1, of_decide_eq_true h2⟩
  have hne_nodes : ∀ v ∈ ne, v ∈ dictKeys g.nodes := by
    intro v hv
    exact hwf.step_dst_mem (show Step g c v from (hne_succ v hv).1)
  have hcount_res' : ∀ v, inCount g (res ++ [c]) v =
      inCount g res v + (if Step g c v then 1 else 0) :=
    fun v => inCount_append_singleton g res c v
  -- a node already output or queued has counter ≠ 1
  have hold_zero : ∀ v, v ∈ res ∨ v ∈ c :: q → v ∈ dictKeys g.nodes →
      dictGetD idg v 0 = ((inNbrs g v).length : Int) -
        ((inNbrs g v).length : Int) := by
    intro v hv hvN
    have hall : ∀ u, Step g u v → u ∈ res := (inv.iff4 v hvN).1 hv
    have := inCount_eq_of_all_in hwf hres_nodup hall
    rw [inv.counts v hvN, this]
  have hne_disj : ∀ v ∈ ne, v ∉ res ∧ v ∉ c :: q := by
    intro v hv
    constructor <;> intro hmem
    · have h0 := hold_zero v (Or.inl hmem) (hne_nodes v hv)
      have h1 := (hne_succ v hv).2
      omega
    · have h0 := hold_zero v (Or.inr hmem) (hne_nodes v hv)
      have h1 := (hne_succ v hv).2
      omega
  -- a freshly enqueued node has all in-neighbours in the new output
  have hne_all : ∀ v ∈ ne, ∀ u, Step g u v → u ∈ res ++ [c] := by
    intro v hv
    have hstepcv : Step g c v := (hne_succ v hv).1
    have hvN : v ∈ dictKeys g.nodes := hne_nodes v hv
    have h1 : dictGetD idg v 0 = 1 := (hne_succ v hv).2
    have h2 := inv.counts v hvN
    have h3 : (inCount g (res ++ [c]) v : Int) = (inNbrs g v).length := by
      rw [hcount_res' v, if_pos hstepcv]
      push_cast
      omega
    have h4 : inCount g (res ++ [c]) v = (inNbrs g v).length := by
      exact_mod_cast h3
    exact all_in_of_inCount_eq hwf hres'_nodup h4
  refine ⟨?_, ?_, ?_, ?_, ?_, ?_, ?_⟩
  · rw [hk, inv.keys]
  · intro v hvN
    by_cases hv : v ∈ g.successors c
    · rw [hdec v hv, inv.counts v hvN, hcount_res' v,
        if_pos (show Step g c v from hv)]
      push_cast
      omega
    · rw [hsame v hv, inv.counts v hvN, hcount_res' v,
        if_neg (show ¬ Step g c v from hv)]
      push_cast
      omega
  · rw [hq]
    have hshape : (res ++ [c]) ++ (q ++ ne) = (res ++ c :: q) ++ ne := by
      simp [List.append_assoc]
    rw [hshape, List.nodup_append]
    refine ⟨inv.nodup, hne ▸ (hnds c).filter _, ?_⟩
    intro a ha hane
    rcases List.mem_append.1 ha with ha | ha
    · exact (hne_disj a hane).1 ha
    · exact (hne_disj a hane).2 ha
  · rw [hq]
    intro x hx
    rcases List.mem_append.1 hx with hx | hx
    · exact hres'_sub x hx
    · rcases List.mem_append.1 hx with hx | hx
      · exact inv.subN x (List.mem_append.2 (Or.inr (List.mem_cons_of_mem _ hx)))
      · exact hne_nodes x hx
  · rw [hq]
    intro v hvN
    constructor
    · rintro (hv | hv)
      · rcases List.mem_append.1 hv with hv | hv
        · have := (inv.iff4 v hvN).1 (Or.inl hv)
          exact fun u hu => List.mem_append.2 (Or.inl (this u hu))
        · rcases List.mem_singleton.1 hv with rfl
          exact fun u hu => List.mem_append.2 (Or.inl (hcall u hu))
      · rcases List.mem_append.1 hv with hv | hv
        · have := (inv.iff4 v hvN).1 (Or.inr (List.mem_cons_of_mem _ hv))
          exact fun u hu => List.mem_append.2 (Or.inl (this u hu))
        · exact hne_all v hv
    · intro hall
      by_cases hstepc : Step g c v
      · have hvsucc : v ∈ g.successors c := hstepc
        have hnotold : ¬ (v ∈ res ∨ v ∈ c :: q) := by
          intro hv
          have := (inv.iff4 v hvN).1 hv
          exact hcnotres (this c hstepc)
        have h3 : inCount g (res ++ [c]) v = (inNbrs g v).length :=
          inCount_eq_of_all_in hwf hres'_nodup hall
        have h4 := hcount_res' v
        rw [if_pos hstepc] at h4
        have h5 := inv.counts v hvN
        have h6 : dictGetD idg v 0 = 1 := by
          rw [h5]
          have : inCount g res v + 1 = (inNbrs g v).length := by omega
          omega
        refine Or.inr (List.mem_append.2 (Or.inr ?_))
        exact List.mem_filter.2 ⟨hvsucc, decide_eq_true h6⟩
      · have hallres : ∀ u, Step g u v → u ∈ res := by
          intro u hu
          rcases List.mem_append.1 (hall u hu) with h | h
          · exact h
          · rcases List.mem_singleton.1 h with rfl
            exact absurd hu hstepc
        rcases (inv.iff4 v hvN).2 hallres with hv | hv
        · exact Or.inl (List.mem_append.2 (Or.inl hv))
        · rcases List.mem_cons.1 hv with heq | hv
          · exact Or.inl (List.mem_append.2
              (Or.inr (List.mem_singleton.2 heq)))
          · exact Or.inr (List.mem_append.2 (Or.inl hv))
  · rw [List.pairwise_append]
    refine ⟨inv.pairA, List.pairwise_singleton _ _, ?_⟩
    intro a ha b hb
    rcases List.mem_singleton.1 hb with rfl
    intro hstep
    have haN : a ∈ dictKeys g.nodes :=
      inv.subN a (List.mem_append.2 (Or.inl ha))
    have := (inv.iff4 a haN).1 (Or.inl ha)
    exact hcnotres (this b hstep)
  · intro v hv
    rcases List.mem_append.1 hv with hv | hv
    · exact inv.selfC v hv
    · rcases List.mem_singleton.1 hv with rfl
      intro hstep
      exact hcnotres (hcall v hstep)

theorem dictKeys_length {B : Type} (d : List (K × B)) :
    (dictKeys d).length = d.length := List.length_map _ _

theorem kahnLoop_run {g : VersatileDigraph K} (hwf : WF g)
    (hnds : ∀ u, (g.successors u).Nodup) :
    ∀ (fuel : Nat) (idg : List (K × Int)) (queue res : List K),
      KahnInv g idg queue res →
      g.nodes.length ≤ fuel + res.length →
      ∃ res' idg', kahnLoop g fuel idg queue res = some res' ∧
        KahnInv g idg' [] res' := by
  intro fuel
  induction fuel with
  | zero =>
      intro idg queue res inv hlen
      cases queue with
      | nil => exact ⟨res, idg, rfl, inv⟩
      | cons c q =>
          exfalso
          have hsp : (res ++ c :: q).Subperm (dictKeys g.nodes) :=
            List.subperm_of_subset inv.nodup inv.subN
          have h1 := hsp.length_le
          rw [dictKeys_length] at h1
          rw [List.length_append, List.length_cons] at h1
          omega
  | succ fuel ih =>
      intro idg queue res inv hlen
      cases queue with
      | nil => exact ⟨res, idg, rfl, inv⟩
      | cons c q =>
          have hstep : kahnLoop g (fuel + 1) idg (c :: q) res =
              kahnLoop g fuel (processSuccs idg q (g.successors c)).1
                (processSuccs idg q (g.successors c)).2 (res ++ [c]) := rfl
          rw [hstep]
          refine ih _ _ _ (kahnInv_step hwf hnds inv) ?_
          rw [List.length_append, List.length_singleton]
          omega

theorem strict_pred_mem {g : VersatileDigraph K} {res : List K}
    (_hnodup : res.Nodup)
    (hpair : res.Pairwise (fun a b => ¬ Step g b a))
    (hself : ∀ v ∈ res, ¬ Step g v v)
    (hclosed : ∀ v ∈ res, ∀ u, Step g u v → u ∈ res) :
    ∀ (l1 : List K) (v : K) (l2 : List K), res = l1 ++ v :: l2 →
      ∀ u, Step g u v → u ∈ l1 := by
  intro l1 v l2 hres u hstep
  have hv : v ∈ res := by
    rw [hres]
    exact List.mem_append.2 (Or.inr (List.mem_cons_self _ _))
  have hu : u ∈ res := hclosed v hv u hstep
  have huv : u ≠ v := by
    intro heq
    exact hself v hv (heq ▸ hstep)
  rw [hres] at hu
  rcases List.mem_append.1 hu with hu | hu
  · exact hu
  · rcases List.mem_cons.1 hu with heq | hu
    · exact absurd heq huv
    · exfalso
      rw [hres] at hpair
      rcases List.pairwise_append.1 hpair with ⟨_, hp2, _⟩
      rcases List.pairwise_cons.1 hp2 with ⟨hvl2, _⟩
      exact hvl2 u hu hstep

theorem strict_pred_trans {g : VersatileDigraph K} {res : List K}
    (hnodup : res.Nodup)
    (hpair : res.Pairwise (fun a b => ¬ Step g b a))
    (hself : ∀ v ∈ res, ¬ Step g v v)
    (hclosed : ∀ v ∈ res, ∀ u, Step g u v → u ∈ res) :
    ∀ (n : Nat) (l1 : List K) (v : K) (l2 : List K),
      res = l1 ++ v :: l2 → l1.length = n →
      ∀ u, Relation.TransGen (Step g) u v → u ∈ l1 := by
  intro n
  induction n using Nat.strong_induction_on with
  | _ n ih =>
      intro l1 v l2 hres hlen u htrans
      obtain ⟨w, hw1, hw2⟩ := Relation.TransGen.tail'_iff.1 htrans
      have hwl1 : w ∈ l1 :=
        strict_pred_mem hnodup hpair hself hclosed l1 v l2 hres w hw2
      obtain ⟨a, b, hab⟩ := List.append_of_mem hwl1
      have hres2 : res = a ++ w :: (b ++ v :: l2) := by
        rw [hres, hab]
        simp [List.append_assoc]
      rcases Relation.reflTransGen_iff_eq_or_transGen.1 hw1 with heq | htg
      · exact heq ▸ hwl1
      · have halen : a.length < n := by
          rw [hab] at hlen
          rw [List.length_append, List.length_cons] at hlen
          omega
        have hu : u ∈ a :=
          ih a.length halen a w (b ++ v :: l2) hres2 rfl u htg
        rw [hab]
        exact List.mem_append.2 (Or.inl hu)

theorem kahn_no_cycle {g : VersatileDigraph K} {res : List K}
    (hnodup : res.Nodup)
    (hpair : res.Pairwise (fun a b => ¬ Step g b a))
    (hself : ∀ v ∈ res, ¬ Step g v v)
    (hclosed : ∀ v ∈ res, ∀ u, Step g u v → u ∈ res) :
    ∀ v ∈ res, ¬ Relation.TransGen (Step g) v v := by
  intro v hv htrans
  obtain ⟨l1, l2, hres⟩ := List.append_of_mem hv
  have hvl1 : v ∈ l1 :=
    strict_pred_trans hnodup hpair hself hclosed l1.length l1 v l2 hres rfl
      v htrans
  rw [hres] at hnodup
  rcases List.nodup_append.1 hnodup with ⟨_, _, hdisj⟩
  exact hdisj hvl1 (List.mem_cons_self _ _)

theorem pairwise_strict_sublist {g : VersatileDigraph K} {res : List K}
    (hnodup : res.Nodup)
    (hpair : res.Pairwise (fun a b => ¬ Step g b a))
    (hself : ∀ v ∈ res, ¬ Step g v v)
    (hclosed : ∀ v ∈ res, ∀ u, Step g u v → u ∈ res)
    {u v : K} (hstep : Step g u v) (hv : v ∈ res) :
    [u, v].Sublist res := by
  obtain ⟨l1, l2, hres⟩ := List.append_of_mem hv
  have hu : u ∈ l1 :=
    strict_pred_mem hnodup hpair hself hclosed l1 v l2 hres u hstep
  obtain ⟨a, b, hab⟩ := List.append_of_mem hu
  have hres2 : res = a ++ (u :: (b ++ v :: l2)) := by
    rw [hres, hab]
    simp [List.append_assoc]
  rw [hres2]
  refine List.Sublist.trans ?_ (List.sublist_append_right a _)
  rw [show ([u, v] : List K) = u :: [v] from rfl]
  rw [List.cons_sublist_cons]
  refine List.Sublist.trans ?_ (List.sublist_append_right b _)
  exact (List.cons_sublist_cons).2 (List.nil_sublist l2)

theorem cycle_of_all_have_pred {g : VersatileDigraph K} {M : List K}
    (hMne : M ≠ []) (hM : ∀ v ∈ M, ∃ u, u ∈ M ∧ Step g u v) :
    HasCycle g := by
  classical
  have hchoice : ∀ v : K, ∃ u, v ∈ M → u ∈ M ∧ Step g u v := by
    intro v
    by_cases hv : v ∈ M
    · obtain ⟨u, hu⟩ := hM v hv
      exact ⟨u, fun _ => hu⟩
    · exact ⟨v, fun h => absurd h hv⟩
  choose f hf using hchoice
  obtain ⟨v₀, hv₀⟩ : ∃ v, v ∈ M := by
    cases M with
    | nil => exact absurd rfl hMne
    | cons a t => exact ⟨a, List.mem_cons_self _ _⟩
  have hmemseq : ∀ n, f^[n] v₀ ∈ M := by
    intro n
    induction n with
    | zero => exact hv₀
    | succ n ihn =>
        rw [Function.iterate_succ_apply']
        exact (hf _ ihn).1
  have hstepseq : ∀ n, Step g (f^[n + 1] v₀) (f^[n] v₀) := by
    intro n
    rw [Function.iterate_succ_apply']
    exact (hf _ (hmemseq n)).2
  have hchain : ∀ (a k : Nat),
      Relation.TransGen (Step g) (f^[a + k + 1] v₀) (f^[a] v₀) := by
    intro a k
    induction k with
    | zero => exact Relation.TransGen.single (hstepseq a)
    | succ k ihk =>
        have hshift : a + (k + 1) + 1 = (a + k + 1) + 1 := by omega
        rw [hshift]
        exact Relation.TransGen.head (hstepseq (a + k + 1)) ihk
  have hcard : M.toFinset.card < (Finset.range (M.length + 1)).card := by
    rw [Finset.card_range]
    exact Nat.lt_succ_of_le (List.toFinset_card_le M)
  obtain ⟨i, hi, j, hj, hij, hfij⟩ :=
    Finset.exists_ne_map_eq_of_card_lt_of_maps_to hcard
      (fun n _ => List.mem_toFinset.2 (hmemseq n))
  rcases Nat.lt_or_ge i j with hlt | hge
  · have hshift : j = i + (j - i - 1) + 1 := by omega
    have h := hchain i (j - i - 1)
    rw [← hshift] at h
    rw [hfij] at h
    exact ⟨f^[j] v₀, h⟩
  · have hlt' : j < i := by omega
    have hshift : i = j + (i - j - 1) + 1 := by omega
    have h := hchain j (i - j - 1)
    rw [← hshift] at h
    rw [← hfij] at h
    exact ⟨f^[i] v₀, h⟩

theorem dictGet?_map_keyed {B : Type} (l : List (K × Int)) (f : K → B)
    (k : K) :
    dictGet? (l.map (fun p => (p.1, f p.1))) k =
      (dictGet? l k).map (fun _ => f k) := by
  induction l with
  | nil => rfl
  | cons p rest ih =>
      by_cases hpk : p.1 = k
      · rw [List.map_cons,
          dictGet?_cons_hit (p := (p.1, f p.1)) _ hpk,
          dictGet?_cons_hit _ hpk]
        subst hpk
        rfl
      · rw [List.map_cons,
          dictGet?_cons_miss (p := (p.1, f p.1)) _ hpk,
          dictGet?_cons_miss _ hpk, ih]

theorem dictKeys_map_keyed {B : Type} (l : List (K × Int))
    (f : K → B) :
    dictKeys (l.map (fun p => (p.1, f p.1))) = dictKeys l := by
  unfold dictKeys
  rw [List.map_map]
  apply List.map_congr_left
  intro p _
  rfl

theorem inCount_nil (g : VersatileDigraph K) (v : K) :
    inCount g [] v = 0 := rfl

theorem inNbrs_eq_nil_iff {g : VersatileDigraph K} (hwf : WF g) (v : K) :
    inNbrs g v = [] ↔ ∀ u, ¬ Step g u v := by
  constructor
  · intro h u hu
    have := (mem_inNbrs_iff hwf u v).2 hu
    rw [h] at this
    cases this
  · intro h
    rw [List.eq_nil_iff_forall_not_mem]
    intro u hu
    exact h u ((mem_inNbrs_iff hwf u v).1 hu)

theorem kahnInv_seed {g : VersatileDigraph K} (hwf : WF g) :
    KahnInv g (g.nodes.map (fun p => (p.1, (g.indegree p.1 : Int))))
      ((dictKeys g.nodes).filter
        (fun node => decide (dictGetD
          (g.nodes.map (fun p => (p.1, (g.indegree p.1 : Int)))) node 0
            = 0)))
      [] := by
  set idg0 := g.nodes.map (fun p => (p.1, (g.indegree p.1 : Int)))
    with hidg0
  have hkeys0 : dictKeys idg0 = dictKeys g.nodes := by
    rw [hidg0]
    exact dictKeys_map_keyed g.nodes (fun k => (g.indegree k : Int))
  have hget0 : ∀ v ∈ dictKeys g.nodes,
      dictGetD idg0 v 0 = (g.indegree v : Int) := by
    intro v hv
    have hmk := dictGet?_map_keyed g.nodes
      (fun x => (g.indegree x : Int)) v
    rw [hidg0, dictGetD, hmk]
    obtain ⟨x, hx⟩ : ∃ x, dictGet? g.nodes v = some x := by
      cases h : dictGet? g.nodes v with
      | none => exact absurd ((dictGet?_eq_none_iff _ _).1 h) (by simpa using hv)
      | some x => exact ⟨x, rfl⟩
    rw [hx]
    rfl
  refine ⟨hkeys0, ?_, ?_, ?_, ?_, List.Pairwise.nil, by simp⟩
  · intro v hv
    rw [hget0 v hv, indegree_eq_inNbrs_length hwf, inCount_nil]
    simp
  · exact (hwf.nodes_nodup.filter _)
  · intro x hx
    rcases List.mem_filter.1 hx with ⟨h, _⟩
    exact h
  · intro v hv
    constructor
    · rintro (h | h)
      · cases h
      · rcases List.mem_filter.1 h with ⟨_, hdec⟩
        have h0 : dictGetD idg0 v 0 = 0 := of_decide_eq_true hdec
        rw [hget0 v hv] at h0
        have hdeg : g.indegree v = 0 := by exact_mod_cast h0
        rw [indegree_eq_inNbrs_length hwf] at hdeg
        have hnil : inNbrs g v = [] := List.length_eq_zero.1 hdeg
        intro u hu
        exact absurd hu ((inNbrs_eq_nil_iff hwf v).1 hnil u)
    · intro hall
      refine Or.inr (List.mem_filter.2 ⟨hv, decide_eq_true ?_⟩)
      have hnil : inNbrs g v = [] := by
        rw [inNbrs_eq_nil_iff hwf]
        intro u hu
        have := hall u hu
        cases this
      rw [hget0 v hv, indegree_eq_inNbrs_length hwf, hnil]
      rfl

/-- C1 (amended): for every graph built through the base store's
`add_node` / `add_edge` calls in which no ordered pair is inserted by
`add_edge` more than once, `top_sort()` raises `CycleDetected` exactly when
some node lies on a non-empty cycle, and otherwise returns a permutation of
all node keys in which, for every stored edge `(u, v)`, `u` precedes `v`. -/
theorem top_sort_spec (ops : List (Op K)) (hnd : (edgePairs ops).Nodup) :
    (top_sort (buildGraph ops) = Except.error "Graph contains a cycle" ↔
      HasCycle (buildGraph ops)) ∧
    (∀ l, top_sort (buildGraph ops) = Except.ok l →
      List.Perm l (VersatileDigraph.get_nodes (buildGraph ops)) ∧
      ∀ u v, (u, v) ∈ dictKeys (buildGraph ops).edges →
        [u, v].Sublist l) ∧
    (¬ HasCycle (buildGraph ops) →
      ∃ l, top_sort (buildGraph ops) = Except.ok l) := by
  have hwf : WF (buildGraph ops) := wf_buildGraph ops
  have hnds : ∀ u, ((buildGraph ops).successors u).Nodup :=
    nodupSucc_buildGraph hnd
  set g := buildGraph ops with hg
  obtain ⟨res', idg', hrun, hfinal⟩ := kahnLoop_run hwf hnds
    g.nodes.length (g.nodes.map (fun p => (p.1, (g.indegree p.1 : Int))))
    ((dictKeys g.nodes).filter
      (fun node => decide (dictGetD
        (g.nodes.map (fun p => (p.1, (g.indegree p.1 : Int)))) node 0 = 0)))
    [] (kahnInv_seed hwf) (by simp)
  have htop : top_sort g =
      if res'.length = g.nodes.length then Except.ok res'
      else Except.error "Graph contains a cycle" := by
    have hz : top_sort g =
        (match kahnLoop g g.nodes.length
            (g.nodes.map (fun p => (p.1, (g.indegree p.1 : Int))))
            ((dictKeys g.nodes).filter
              (fun node => decide (dictGetD
                (g.nodes.map (fun p => (p.1, (g.indegree p.1 : Int))))
                node 0 = 0))) [] with
          | none => Except.error "fuel"
          | some result =>
              if result.length = g.nodes.length then Except.ok result
              else Except.error "Graph contains a cycle") := rfl
    rw [hz, hrun]
  have hresnd : res'.Nodup := by
    have := hfinal.nodup
    simpa using this
  have hressub : ∀ x ∈ res', x ∈ dictKeys g.nodes := by
    intro x hx
    exact hfinal.subN x (by simpa using hx)
  have hcomplete : ∀ v ∈ dictKeys g.nodes,
      (∀ u, Step g u v → u ∈ res') → v ∈ res' := by
    intro v hv hall
    rcases (hfinal.iff4 v hv).2 hall with h | h
    · exact h
    · cases h
  have hclosed : ∀ v ∈ res', ∀ u, Step g u v → u ∈ res' := by
    intro v hv u hu
    exact (hfinal.iff4 v (hressub v hv)).1 (Or.inl hv) u hu
  by_cases hlen : res'.length = g.nodes.length
  · have hok : top_sort g = Except.ok res' := by rw [htop, if_pos hlen]
    have hperm : List.Perm res' (dictKeys g.nodes) := by
      refine (List.subperm_of_subset hresnd hressub).perm_of_length_le ?_
      rw [dictKeys_length]
      omega
    have hnocyc : ¬ HasCycle g := by
      rintro ⟨n, htg⟩
      obtain ⟨c, hstep, _⟩ := Relation.TransGen.head'_iff.1 htg
      have hnN : n ∈ dictKeys g.nodes := hwf.step_src_mem hstep
      have hnres : n ∈ res' := hperm.mem_iff.2 hnN
      exact kahn_no_cycle hresnd hfinal.pairA hfinal.selfC hclosed n hnres
        htg
    refine ⟨?_, ?_, fun _ => ⟨res', hok⟩⟩
    · rw [hok]
      constructor
      · intro h
        cases h
      · intro h
        exact absurd h hnocyc
    · intro l hl
      rw [hok] at hl
      injection hl with hl
      subst hl
      refine ⟨hperm, ?_⟩
      intro u v huv
      have hstep : Step g u v := (hwf.edges_iff u v).1 huv
      have hvN : v ∈ dictKeys g.nodes := (hwf.edges_nodes u v huv).2
      exact pairwise_strict_sublist hresnd hfinal.pairA hfinal.selfC
        hclosed hstep (hperm.mem_iff.2 hvN)
  · have herr : top_sort g = Except.error "Graph contains a cycle" := by
      rw [htop, if_neg hlen]
    set M := (dictKeys g.nodes).filter (fun v => decide (v ∉ res'))
      with hM
    have hMne : M ≠ [] := by
      intro hnil
      have hsub : ∀ v ∈ dictKeys g.nodes, v ∈ res' := by
        intro v hv
        by_contra hvres
        have : v ∈ M := List.mem_filter.2 ⟨hv, decide_eq_true hvres⟩
        rw [hnil] at this
        cases this
      have h1 : (dictKeys g.nodes).Subperm res' :=
        List.subperm_of_subset hwf.nodes_nodup hsub
      have h2 := h1.length_le
      have h3 := (List.subperm_of_subset hresnd hressub).length_le
      rw [dictKeys_length] at h2 h3
      omega
    have hMpred : ∀ v ∈ M, ∃ u, u ∈ M ∧ Step g u v := by
      intro v hv
      rcases List.mem_filter.1 hv with ⟨hvN, hvdec⟩
      have hvres : v ∉ res' := of_decide_eq_true hvdec
      have : ¬ (∀ u, Step g u v → u ∈ res') := by
        intro hall
        exact hvres (hcomplete v hvN hall)
      push_neg at this
      obtain ⟨u, hu1, hu2⟩ := this
      refine ⟨u, List.mem_filter.2
        ⟨hwf.step_src_mem hu1, decide_eq_true hu2⟩, hu1⟩
    have hcyc : HasCycle g := cycle_of_all_have_pred hMne hMpred
    refine ⟨?_, ?_, ?_⟩
    · rw [herr]
      exact ⟨fun _ => hcyc, fun _ => rfl⟩
    · intro l hl
      rw [herr] at hl
      cases hl
    · intro h
      exact absurd hcyc h

set_option maxRecDepth 40000 in
/-- C1 counterexample: on a base-store graph where `add_edge("A","B")` was
called twice, the decrement side of Kahn's algorithm double-counts the
duplicated adjacency entry, so `top_sort()` returns `[A, B, C]` without
raising even though the edge relation has the cycle B→C→B — and the stored
edge (C, B) has B *before* C in the output. -/
theorem top_sort_misses_cycle :
    HasCycle (buildGraph dupOps) ∧
    top_sort (buildGraph dupOps) = Except.ok ["A", "B", "C"] ∧
    ("C", "B") ∈ dictKeys (buildGraph dupOps).edges ∧
    ¬ (["C", "B"] : List String).Sublist ["A", "B", "C"] := by
  refine ⟨⟨"B", Relation.TransGen.head
    (show Step (buildGraph dupOps) "B" "C" by decide)
    (Relation.TransGen.single
      (show Step (buildGraph dupOps) "C" "B" by decide))⟩,
    by rfl, by decide, by decide⟩

set_option maxRecDepth 40000 in
/-- Witness for C1 at a concrete input: the two-node cycle A→B, B→A (each
pair inserted once) makes `top_sort` raise `CycleDetected`. -/
theorem top_sort_spec_witness :
    (edgePairs [Op.addEdge "A" "B" 0 0 "" 0,
        Op.addEdge "B" "A" 0 0 "" 0]).Nodup ∧
    top_sort (buildGraph [Op.addEdge "A" "B" 0 0 "" 0,
        Op.addEdge "B" "A" 0 0 "" 0]) =
      Except.error "Graph contains a cycle" :=
  ⟨by decide,
    (top_sort_spec [Op.addEdge "A" "B" 0 0 "" 0,
        Op.addEdge "B" "A" 0 0 "" 0] (by decide)).1.2
      ⟨"A", Relation.TransGen.head
        (show Step (buildGraph [Op.addEdge "A" "B" 0 0 "" 0,
          Op.addEdge "B" "A" 0 0 "" 0]) "A" "B" by decide)
        (Relation.TransGen.single
          (show Step (buildGraph [Op.addEdge "A" "B" 0 0 "" 0,
            Op.addEdge "B" "A" 0 0 "" 0]) "B" "A" by decide))⟩⟩

theorem sum_le_of_sublist {l1 l2 : List Nat} (h : l1.Sublist l2) :
    l1.sum ≤ l2.sum := by
  induction h with
  | slnil => exact le_refl _
  | cons a h ih =>
      rw [List.sum_cons]
      omega
  | cons₂ a h ih =>
      rw [List.sum_cons, List.sum_cons]
      omega

theorem phi_append (g : VersatileDigraph K) (V a b : List K) :
    phi g V (a ++ b) = phi g V a + b.length := by
  unfold phi
  rw [List.length_append]
  omega

theorem phi_mono_visited (g : VersatileDigraph K) {V V' : List K}
    (hsub : ∀ y ∈ V, y ∈ V') (ws : List K) :
    phi g V' ws ≤ phi g V ws := by
  unfold phi
  have hfil : ((dictKeys g.nodes).filter
        (fun v => decide (v ∉ V'))).Sublist
      ((dictKeys g.nodes).filter (fun v => decide (v ∉ V))) := by
    refine List.monotone_filter_right _ ?_
    intro a ha
    rw [decide_eq_true_iff] at ha ⊢
    intro hmem
    exact ha (hsub a hmem)
  have := sum_le_of_sublist (hfil.map (nodeWeight g))
  omega

theorem phi_visit_lt_nil {g : VersatileDigraph K} (hwf : WF g) {c : K}
    {visited : List K} (hcv : c ∉ visited) (pushed : List K)
    (hp : pushed.length ≤ (g.successors c).length) :
    phi g (c :: visited) pushed < phi g visited [c] := by
  have := phi_visit_lt hwf hcv pushed [] hp
  simpa using this

theorem dfsLoop_stable {g : VersatileDigraph K} (hwf : WF g) :
    ∀ (f1 f2 : Nat) (visited stack : List K),
      phi g visited stack < f1 → phi g visited stack < f2 →
      dfsLoop g f1 visited stack = dfsLoop g f2 visited stack := by
  intro f1
  induction f1 with
  | zero => intro f2 visited stack h1 _; omega
  | succ f1 ih =>
      intro f2 visited stack h1 h2
      cases stack with
      | nil => cases f2 <;> rfl
      | cons c rest =>
          have hphi1 : 1 ≤ phi g visited (c :: rest) := by
            unfold phi
            rw [List.length_cons]
            omega
          obtain ⟨f2', rfl⟩ : ∃ f2', f2 = f2' + 1 := ⟨f2 - 1, by omega⟩
          by_cases hcv : c ∈ visited
          · rw [show dfsLoop g (f1 + 1) visited (c :: rest) =
                dfsLoop g f1 visited rest by rw [dfsLoop, if_pos hcv],
              show dfsLoop g (f2' + 1) visited (c :: rest) =
                dfsLoop g f2' visited rest by rw [dfsLoop, if_pos hcv]]
            have hs := phi_skip g visited c rest
            exact ih f2' visited rest (by omega) (by omega)
          · rw [show dfsLoop g (f1 + 1) visited (c :: rest) =
                c :: dfsLoop g f1 (c :: visited)
                  (((g.successors c).filter
                    (fun s => s ∉ c :: visited)) ++ rest) by
                rw [dfsLoop, if_neg hcv],
              show dfsLoop g (f2' + 1) visited (c :: rest) =
                c :: dfsLoop g f2' (c :: visited)
                  (((g.successors c).filter
                    (fun s => s ∉ c :: visited)) ++ rest) by
                rw [dfsLoop, if_neg hcv]]
            have hlt := phi_visit_lt hwf hcv
              ((g.successors c).filter (fun s => s ∉ c :: visited)) rest
              (List.length_filter_le _ _)
            rw [ih f2' (c :: visited) _ (by omega) (by omega)]

theorem recDfsList_visited_mono (g : VersatileDigraph K) :
    ∀ (fuel : Nat) (visited ws : List K) (x : K), x ∈ visited →
      x ∈ (recDfsList g fuel visited ws).1 := by
  intro fuel
  induction fuel with
  | zero =>
      intro visited ws x hx
      cases ws <;> exact hx
  | succ fuel ih =>
      intro visited ws x hx
      cases ws with
      | nil => exact hx
      | cons y ys =>
          by_cases hy : y ∈ visited
          · rw [show recDfsList g (fuel + 1) visited (y :: ys) =
                recDfsList g fuel visited ys by
                rw [recDfsList, if_pos hy]]
            exact ih visited ys x hx
          · rw [show recDfsList g (fuel + 1) visited (y :: ys) =
                ((recDfsList g fuel
                    (recDfsList g fuel (y :: visited)
                      (g.successors y)).1 ys).1,
                  y :: ((recDfsList g fuel (y :: visited)
                      (g.successors y)).2 ++
                    (recDfsList g fuel
                      (recDfsList g fuel (y :: visited)
                        (g.successors y)).1 ys).2)) by
                rw [recDfsList, if_neg hy]]
            exact ih _ ys x
              (ih (y :: visited) (g.successors y) x
                (List.mem_cons_of_mem _ hx))

theorem recDfsList_stable {g : VersatileDigraph K} (hwf : WF g) :
    ∀ (f1 f2 : Nat) (visited ws : List K),
      phi g visited ws < f1 → phi g visited ws < f2 →
      recDfsList g f1 visited ws = recDfsList g f2 visited ws := by
  intro f1
  induction f1 with
  | zero => intro f2 visited ws h1 _; omega
  | succ f1 ih =>
      intro f2 visited ws h1 h2
      cases ws with
      | nil => cases f2 <;> rfl
      | cons y ys =>
          have hphi1 : 1 ≤ phi g visited (y :: ys) := by
            unfold phi
            rw [List.length_cons]
            omega
          obtain ⟨f2', rfl⟩ : ∃ f2', f2 = f2' + 1 := ⟨f2 - 1, by omega⟩
          have hs := phi_skip g visited y ys
          by_cases hy : y ∈ visited
          · rw [show recDfsList g (f1 + 1) visited (y :: ys) =
                recDfsList g f1 visited ys by rw [recDfsList, if_pos hy],
              show recDfsList g (f2' + 1) visited (y :: ys) =
                recDfsList g f2' visited ys by rw [recDfsList, if_pos hy]]
            exact ih f2' visited ys (by omega) (by omega)
          · have hsucc1 : phi g (y :: visited) (g.successors y) <
                phi g visited (y :: ys) := by
              have := phi_visit_lt_nil hwf hy (g.successors y) (le_refl _)
              have hy1 : phi g visited [y] ≤ phi g visited (y :: ys) := by
                unfold phi
                rw [List.length_cons, List.length_cons, List.length_nil]
                omega
              omega
            have hr1 : recDfsList g f1 (y :: visited) (g.successors y) =
                recDfsList g f2' (y :: visited) (g.successors y) :=
              ih f2' (y :: visited) (g.successors y) (by omega) (by omega)
            have hmono : ∀ z ∈ visited,
                z ∈ (recDfsList g f2' (y :: visited)
                  (g.successors y)).1 := by
              intro z hz
              exact recDfsList_visited_mono g f2' (y :: visited)
                (g.successors y) z (List.mem_cons_of_mem _ hz)
            have hys : phi g (recDfsList g f2' (y :: visited)
                (g.successors y)).1 ys ≤ phi g visited ys :=
              phi_mono_visited g hmono ys
            rw [show recDfsList g (f1 + 1) visited (y :: ys) =
                ((recDfsList g f1
                    (recDfsList g f1 (y :: visited)
                      (g.successors y)).1 ys).1,
                  y :: ((recDfsList g f1 (y :: visited)
                      (g.successors y)).2 ++
                    (recDfsList g f1
                      (recDfsList g f1 (y :: visited)
                        (g.successors y)).1 ys).2)) by
                rw [recDfsList, if_neg hy],
              show recDfsList g (f2' + 1) visited (y :: ys) =
                ((recDfsList g f2'
                    (recDfsList g f2' (y :: visited)
                      (g.successors y)).1 ys).1,
                  y :: ((recDfsList g f2' (y :: visited)
                      (g.successors y)).2 ++
                    (recDfsList g f2'
                      (recDfsList g f2' (y :: visited)
                        (g.successors y)).1 ys).2)) by
                rw [recDfsList, if_neg hy]]
            rw [hr1]
            rw [ih f2' _ ys (by omega) (by omega)]

theorem dfsLoop_nil (g : VersatileDigraph K) (fuel : Nat)
    (visited : List K) : dfsLoop g fuel visited [] = [] := by
  cases fuel <;> rfl

theorem dfsLoop_skip (g : VersatileDigraph K) {c : K} {visited : List K}
    (fuel : Nat) (rest : List K) (hc : c ∈ visited) :
    dfsLoop g (fuel + 1) visited (c :: rest) =
      dfsLoop g fuel visited rest := by
  rw [dfsLoop, if_pos hc]

theorem dfsLoop_visit (g : VersatileDigraph K) {c : K} {visited : List K}
    (fuel : Nat) (rest : List K) (hc : c ∉ visited) :
    dfsLoop g (fuel + 1) visited (c :: rest) =
      c :: dfsLoop g fuel (c :: visited)
        (((g.successors c).filter (fun s => s ∉ c :: visited)) ++ rest) := by
  rw [dfsLoop, if_neg hc]

theorem recDfsList_nil (g : VersatileDigraph K) (fuel : Nat)
    (visited : List K) : recDfsList g fuel visited [] = (visited, []) := by
  cases fuel <;> rfl

theorem recDfsList_skip (g : VersatileDigraph K) {y : K}
    {visited : List K} (fuel : Nat) (ys : List K) (hy : y ∈ visited) :
    recDfsList g (fuel + 1) visited (y :: ys) =
      recDfsList g fuel visited ys := by
  rw [recDfsList, if_pos hy]

theorem recDfsList_visit (g : VersatileDigraph K) {y : K}
    {visited : List K} (fuel : Nat) (ys : List K) (hy : y ∉ visited) :
    recDfsList g (fuel + 1) visited (y :: ys) =
      ((recDfsList g fuel
          (recDfsList g fuel (y :: visited) (g.successors y)).1 ys).1,
        y :: ((recDfsList g fuel (y :: visited) (g.successors y)).2 ++
          (recDfsList g fuel
            (recDfsList g fuel (y :: visited) (g.successors y)).1
              ys).2)) := by
  rw [recDfsList, if_neg hy]

theorem phi_cons_ge_one (g : VersatileDigraph K) (visited : List K)
    (y : K) (ys : List K) : 1 ≤ phi g visited (y :: ys) := by
  unfold phi
  rw [List.length_cons]
  omega

theorem phi_single_le (g : VersatileDigraph K) (visited : List K)
    (y : K) (ys : List K) :
    phi g visited [y] ≤ phi g visited (y :: ys) := by
  unfold phi
  rw [List.length_cons, List.length_cons, List.length_nil]
  omega

/-- Worklist elements already visited at an earlier point may be
pre-filtered away without changing the recursive DFS: they would be skipped
anyway, because the visited set only grows. -/
theorem recDfsList_filter_old {g : VersatileDigraph K} (hwf : WF g)
    (V₀ : List K) :
    ∀ (l V : List K) (f1 f2 : Nat),
      (∀ y ∈ V₀, y ∈ V) →
      phi g V (l.filter (fun y => y ∉ V₀)) < f1 →
      phi g V l < f2 →
      recDfsList g f1 V (l.filter (fun y => y ∉ V₀)) =
        recDfsList g f2 V l := by
  intro l
  induction l with
  | nil =>
      intro V f1 f2 _ _ _
      rw [List.filter_nil, recDfsList_nil, recDfsList_nil]
  | cons y l' ih =>
      intro V f1 f2 hV h1 h2
      obtain ⟨f2', rfl⟩ : ∃ f2', f2 = f2' + 1 :=
        ⟨f2 - 1, by have := phi_cons_ge_one g V y l'; omega⟩
      have hs2 := phi_skip g V y l'
      by_cases hy0 : y ∈ V₀
      · have hfil : (y :: l').filter (fun z => z ∉ V₀) =
            l'.filter (fun z => z ∉ V₀) := by
          rw [List.filter_cons, if_neg (by simpa using hy0)]
        rw [hfil] at h1 ⊢
        rw [recDfsList_skip g f2' l' (hV y hy0)]
        exact ih V f1 f2' hV h1 (by omega)
      · have hfil : (y :: l').filter (fun z => z ∉ V₀) =
            y :: l'.filter (fun z => z ∉ V₀) := by
          rw [List.filter_cons, if_pos (by simpa using hy0)]
        rw [hfil] at h1 ⊢
        obtain ⟨f1', rfl⟩ : ∃ f1', f1 = f1' + 1 :=
          ⟨f1 - 1, by
            have := phi_cons_ge_one g V y (l'.filter (fun z => z ∉ V₀))
            omega⟩
        have hs1 := phi_skip g V y (l'.filter (fun z => z ∉ V₀))
        by_cases hyV : y ∈ V
        · rw [recDfsList_skip g f1' _ hyV, recDfsList_skip g f2' l' hyV]
          exact ih V f1' f2' hV (by omega) (by omega)
        · have hsucc1 : phi g (y :: V) (g.successors y) <
              phi g V [y] := phi_visit_lt_nil hwf hyV _ (le_refl _)
          have hy1a := phi_single_le g V y (l'.filter (fun z => z ∉ V₀))
          have hy1b := phi_single_le g V y l'
          have hr1eq : recDfsList g f1' (y :: V) (g.successors y) =
              recDfsList g f2' (y :: V) (g.successors y) :=
            recDfsList_stable hwf f1' f2' (y :: V) (g.successors y)
              (by omega) (by omega)
          set r1 := recDfsList g f2' (y :: V) (g.successors y) with hr1
          have hVr1 : ∀ z ∈ V, z ∈ r1.1 := by
            intro z hz
            exact recDfsList_visited_mono g f2' (y :: V) (g.successors y)
              z (List.mem_cons_of_mem _ hz)
          have hmonoa := phi_mono_visited g hVr1
            (l'.filter (fun z => z ∉ V₀))
          have hmonob := phi_mono_visited g hVr1 l'
          have hcont := ih r1.1 f1' f2' (fun z hz => hVr1 z (hV z hz))
            (by omega) (by omega)
          rw [recDfsList_visit g f1' _ hyV, recDfsList_visit g f2' l' hyV,
            hr1eq, hcont]

theorem dfsLoop_eq_recDfsList {g : VersatileDigraph K} (hwf : WF g) :
    ∀ (n : Nat) (visited ws : List K), phi g visited ws ≤ n →
      ∀ (fd fi fr : Nat) (rest : List K),
        phi g visited ws < fd →
        phi g visited (ws ++ rest) < fi →
        phi g (recDfsList g fd visited ws).1 rest < fr →
        dfsLoop g fi visited (ws ++ rest) =
          (recDfsList g fd visited ws).2 ++
            dfsLoop g fr (recDfsList g fd visited ws).1 rest := by
  intro n
  induction n using Nat.strong_induction_on with
  | _ n ih =>
      intro visited ws hn fd fi fr rest hfd hfi hfr
      cases ws with
      | nil =>
          rw [recDfsList_nil] at hfr ⊢
          rw [List.nil_append, List.nil_append]
          exact dfsLoop_stable hwf fi fr visited rest
            (by rwa [List.nil_append] at hfi) hfr
      | cons x xs =>
          have h1 := phi_cons_ge_one g visited x xs
          have hsk := phi_skip g visited x xs
          have hska := phi_skip g visited x (xs ++ rest)
          have happ := phi_append g visited (x :: xs) rest
          have happ2 := phi_append g visited xs rest
          obtain ⟨fd', rfl⟩ : ∃ fd', fd = fd' + 1 := ⟨fd - 1, by omega⟩
          obtain ⟨fi', rfl⟩ : ∃ fi', fi = fi' + 1 := ⟨fi - 1, by omega⟩
          by_cases hx : x ∈ visited
          · rw [show (x :: xs) ++ rest = x :: (xs ++ rest) from rfl,
              dfsLoop_skip g fi' (xs ++ rest) hx]
            rw [recDfsList_skip g fd' xs hx] at hfr ⊢
            exact ih (phi g visited xs) (by omega) visited xs (le_refl _)
              fd' fi' fr rest (by omega) (by omega) hfr
          · have hsucc1 : phi g (x :: visited) (g.successors x) <
                phi g visited [x] := phi_visit_lt_nil hwf hx _ (le_refl _)
            have hsingle := phi_single_le g visited x xs
            have hpush : phi g (x :: visited)
                (((g.successors x).filter
                  (fun s => s ∉ x :: visited))) < phi g visited [x] :=
              phi_visit_lt_nil hwf hx _ (List.length_filter_le _ _)
            have hpushall := phi_visit_lt hwf hx
              ((g.successors x).filter (fun s => s ∉ x :: visited))
              (xs ++ rest) (List.length_filter_le _ _)
            set r1 := recDfsList g fd' (x :: visited) (g.successors x)
              with hr1def
            have hbridge : recDfsList g fd' (x :: visited)
                ((g.successors x).filter (fun s => s ∉ x :: visited)) =
                r1 := by
              rw [hr1def]
              refine recDfsList_filter_old hwf (x :: visited)
                (g.successors x) (x :: visited) fd' fd'
                (fun y hy => hy) ?_ ?_
              · omega
              · omega
            have hxvr1 : ∀ z ∈ x :: visited, z ∈ r1.1 := by
              intro z hz
              rw [hr1def]
              exact recDfsList_visited_mono g fd' (x :: visited)
                (g.successors x) z hz
            have hvr1 : ∀ z ∈ visited, z ∈ r1.1 :=
              fun z hz => hxvr1 z (List.mem_cons_of_mem _ hz)
            have hmono_xs := phi_mono_visited g hvr1 xs
            have hmono_xsrest := phi_mono_visited g hvr1 (xs ++ rest)
            have happ3 := phi_append g r1.1 xs rest
            set r2 := recDfsList g fd' r1.1 xs with hr2def
            rw [show (x :: xs) ++ rest = x :: (xs ++ rest) from rfl,
              dfsLoop_visit g fi' (xs ++ rest) hx]
            rw [recDfsList_visit g fd' xs hx] at hfr ⊢
            rw [← hr1def] at hfr ⊢
            rw [← hr2def] at hfr ⊢
            have hIH1 := ih (phi g (x :: visited)
                ((g.successors x).filter (fun s => s ∉ x :: visited)))
              (by omega) (x :: visited)
              ((g.successors x).filter (fun s => s ∉ x :: visited))
              (le_refl _) fd' fi' fi' (xs ++ rest) (by omega)
              (by
                have hpa := phi_append g (x :: visited)
                  ((g.successors x).filter (fun s => s ∉ x :: visited))
                  (xs ++ rest)
                have hws := phi_append g visited xs rest
                omega)
              (by rw [hbridge]; omega)
            rw [hbridge] at hIH1
            rw [hIH1]
            have hIH2 := ih (phi g r1.1 xs) (by omega) r1.1 xs (le_refl _)
              fd' fi' fr rest (by omega) (by omega)
              (by rw [← hr2def]; exact hfr)
            rw [← hr2def] at hIH2
            rw [hIH2]
            simp [List.append_assoc]

/-- C6: the iterative, stack-based `dfs(s)` yields exactly the sequence a
recursive pre-order depth-first search from `s` would produce (successors in
adjacency order, already-visited nodes skipped, `s` omitted). -/
theorem dfs_eq_recursive_preorder (ops : List (Op K)) (s : K)
    (hs : s ∈ dictKeys (buildGraph ops).nodes) :
    dfs (buildGraph ops) s = recDfs (buildGraph ops) s := by
  have hwf : WF (buildGraph ops) := wf_buildGraph ops
  set g := buildGraph ops with hg
  have hdfs : dfs g s = dfsLoop g (traverseFuel g) [s] (g.successors s) := by
    unfold dfs
    rw [if_pos hs]
  have hrec : recDfs g s =
      (recDfsList g (traverseFuel g) [s] (g.successors s)).2 := by
    unfold recDfs
    rw [if_pos hs]
  have hstart := phi_start_lt hwf hs
  have hfr : phi g
      (recDfsList g (traverseFuel g) [s] (g.successors s)).1
      ([] : List K) < traverseFuel g := by
    have hsub : ∀ z ∈ ([s] : List K), z ∈
        (recDfsList g (traverseFuel g) [s] (g.successors s)).1 :=
      fun z hz => recDfsList_visited_mono g _ _ _ z hz
    have hm := phi_mono_visited g hsub ([] : List K)
    have hb : phi g [s] ([] : List K) ≤ phi g [s] [s] := by
      unfold phi
      rw [List.length_cons, List.length_nil]
      omega
    have hc := phi_start_pair_lt hwf hs
    omega
  have hmain := dfsLoop_eq_recDfsList hwf
    (phi g [s] (g.successors s)) [s] (g.successors s) (le_refl _)
    (traverseFuel g) (traverseFuel g) (traverseFuel g) []
    hstart (by rwa [List.append_nil]) hfr
  rw [hdfs, hrec]
  rw [List.append_nil] at hmain
  rw [hmain, dfsLoop_nil, List.append_nil]

/-- Witness for C6 at a concrete input: on the diamond graph A→B, A→C, B→D,
C→D, D→E the two formulations agree from start A. -/
theorem dfs_eq_recursive_preorder_witness :
    ("A" ∈ dictKeys (buildGraph [Op.addEdge "A" "B" 0 0 "" 0,
      Op.addEdge "A" "C" 0 0 "" 0, Op.addEdge "B" "D" 0 0 "" 0,
      Op.addEdge "C" "D" 0 0 "" 0, Op.addEdge "D" "E" 0 0 "" 0]).nodes) ∧
    dfs (buildGraph [Op.addEdge "A" "B" 0 0 "" 0,
      Op.addEdge "A" "C" 0 0 "" 0, Op.addEdge "B" "D" 0 0 "" 0,
      Op.addEdge "C" "D" 0 0 "" 0, Op.addEdge "D" "E" 0 0 "" 0]) "A" =
    recDfs (buildGraph [Op.addEdge "A" "B" 0 0 "" 0,
      Op.addEdge "A" "C" 0 0 "" 0, Op.addEdge "B" "D" 0 0 "" 0,
      Op.addEdge "C" "D" 0 0 "" 0, Op.addEdge "D" "E" 0 0 "" 0]) "A" :=
  ⟨by decide,
    dfs_eq_recursive_preorder [Op.addEdge "A" "B" 0 0 "" 0,
      Op.addEdge "A" "C" 0 0 "" 0, Op.addEdge "B" "D" 0 0 "" 0,
      Op.addEdge "C" "D" 0 0 "" 0, Op.addEdge "D" "E" 0 0 "" 0] "A"
      (by decide)⟩

theorem stepN_snoc {g : VersatileDigraph K} :
    ∀ {n : Nat} {s c f : K}, StepN g n s c → Step g c f →
      StepN g (n + 1) s f := by
  intro n
  induction n with
  | zero =>
      intro s c f h hstep
      exact ⟨f, by rw [show s = c from h]; exact hstep, rfl⟩
  | succ n ih =>
      intro s c f h hstep
      obtain ⟨v, hsv, hvc⟩ := h
      exact ⟨v, hsv, ih hvc hstep⟩

theorem stepN_last {g : VersatileDigraph K} :
    ∀ {n : Nat} {s v : K}, StepN g (n + 1) s v →
      ∃ u, StepN g n s u ∧ Step g u v := by
  intro n
  induction n with
  | zero =>
      intro s v h
      obtain ⟨w, hsw, hwv⟩ := h
      exact ⟨s, rfl, by rw [← show w = v from hwv]; exact hsw⟩
  | succ n ih =>
      intro s v h
      obtain ⟨w, hsw, hwv⟩ := h
      obtain ⟨u, hwu, huv⟩ := ih hwv
      exact ⟨u, ⟨w, hsw, hwu⟩, huv⟩

theorem distLE_mono {g : VersatileDigraph K} {s v : K} {n n' : Nat}
    (h : distLE g s v n) (hle : n ≤ n') : distLE g s v n' := by
  rcases h with ⟨m, hm, hsN⟩
  exact ⟨m, hm.trans hle, hsN⟩

/-- Level invariant of the `bfs` loop: the queue splits into a prefix of
nodes at distance `k` and a suffix at distance `k + 1`, every node at
distance at most `k` has been discovered, and the yielded sequence so far is
sorted by level and bounded by level `k + 1`.  Under it, the final yielded
sequence is sorted by level. -/
theorem bfsLoop_sorted {g : VersatileDigraph K} (hwf : WF g) (s : K) :
    ∀ (fuel : Nat) (visited queue out : List K) (k : Nat) (A B : List K),
      phi g visited queue < fuel →
      queue = A ++ B →
      (∀ a ∈ A, DistIs g s a k) →
      (∀ b ∈ B, DistIs g s b (k + 1)) →
      (∀ v, distLE g s v k → v ∈ visited) →
      (∀ x ∈ queue, x ∈ visited) →
      (∀ v ∈ visited, v ∉ queue → ∀ y, Step g v y → y ∈ visited) →
      (∀ x ∈ out, distLE g s x (k + 1)) →
      List.Pairwise (LevelLE g s) out →
      List.Pairwise (LevelLE g s) (bfsLoop g fuel visited queue out) := by
  intro fuel
  induction fuel with
  | zero => intro visited queue out k A B hphi; omega
  | succ fuel ih =>
      intro visited queue out k A B hphi hqAB hA hB hL4 hq hcl houtLE hsort
      cases queue with
      | nil =>
          rw [show bfsLoop g (fuel + 1) visited [] out = out from rfl]
          exact hsort
      | cons c rest =>
          have hstep : ∀ (k' : Nat) (A' B' : List K),
              rest = A' ++ B' →
              DistIs g s c k' →
              (∀ a ∈ A', DistIs g s a k') →
              (∀ b ∈ B', DistIs g s b (k' + 1)) →
              (∀ v, distLE g s v k' → v ∈ visited) →
              (∀ x ∈ out, distLE g s x (k' + 1)) →
              List.Pairwise (LevelLE g s)
                (bfsLoop g (fuel + 1) visited (c :: rest) out) := by
            intro k' A' B' hrest hc hA' hB' hL4' houtLE'
            have hout2 : bfsLoop g (fuel + 1) visited (c :: rest) out =
                bfsLoop g fuel
                  ((freshList visited (g.successors c)).reverse ++ visited)
                  (rest ++ freshList visited (g.successors c))
                  (out ++ freshList visited (g.successors c)) := by
              rw [bfsLoop, bfsVisit_eq]
            rw [hout2]
            set fl := freshList visited (g.successors c) with hfl
            have hflsub : ∀ x ∈ fl, x ∈ g.successors c ∧ x ∉ visited :=
              fun x hx => freshList_sub _ _ x hx
            have hflN : ∀ x ∈ fl, x ∈ dictKeys g.nodes := by
              intro x hx
              exact hwf.step_dst_mem (hflsub x hx).1
            have hphi' : phi g (fl.reverse ++ visited) (rest ++ fl)
                < fuel := by
              have h1 := phi_fresh_le hwf fl visited rest hflN
                (freshList_nodup _ _) (fun x hx => (hflsub x hx).2)
              have h2 : phi g visited (c :: rest) =
                  phi g visited rest + 1 := phi_skip g visited c rest
              omega
            have hmem' : ∀ x, x ∈ fl.reverse ++ visited ↔
                x ∈ fl ∨ x ∈ visited := by
              intro x
              rw [List.mem_append, List.mem_reverse]
            have hflD : ∀ x ∈ fl, DistIs g s x (k' + 1) := by
              intro x hx
              refine ⟨stepN_snoc hc.1 (hflsub x hx).1, ?_⟩
              intro m hm
              by_contra hlt
              push_neg at hlt
              exact (hflsub x hx).2 (hL4' x ⟨m, by omega, hm⟩)
            refine ih (fl.reverse ++ visited) (rest ++ fl) (out ++ fl) k'
              A' (B' ++ fl) hphi' ?_ hA' ?_ ?_ ?_ ?_ ?_ ?_
            · rw [hrest, List.append_assoc]
            · intro b hb
              rcases List.mem_append.1 hb with hb | hb
              · exact hB' b hb
              · exact hflD b hb
            · intro v hv
              exact (hmem' v).2 (Or.inr (hL4' v hv))
            · intro x hx
              rcases List.mem_append.1 hx with hx | hx
              · exact (hmem' x).2 (Or.inr (hq x (List.mem_cons_of_mem _ hx)))
              · exact (hmem' x).2 (Or.inl hx)
            · intro v hv hvq y hs
              rcases (hmem' v).1 hv with hv | hv
              · exact absurd (List.mem_append.2 (Or.inr hv)) hvq
              · by_cases hvc : v = c
                · subst hvc
                  rcases freshList_covers (g.successors v) visited y hs
                    with h | h
                  · exact (hmem' y).2 (Or.inr h)
                  · exact (hmem' y).2 (Or.inl h)
                · have hvrest : v ∉ rest := by
                    intro h
                    exact hvq (List.mem_append.2 (Or.inl h))
                  have hvold : v ∉ c :: rest := by
                    intro h
                    rcases List.mem_cons.1 h with heq | h
                    · exact hvc heq
                    · exact hvrest h
                  exact (hmem' y).2 (Or.inr (hcl v hv hvold y hs))
            · intro x hx
              rcases List.mem_append.1 hx with hx | hx
              · exact houtLE' x hx
              · exact ⟨k' + 1, le_refl _, (hflD x hx).1⟩
            · refine List.pairwise_append.2 ⟨hsort, ?_, ?_⟩
              · refine List.pairwise_of_forall_mem_list ?_
                intro a ha b hb n hn
                exact ⟨k' + 1, (hflD b hb).2 n hn, (hflD a ha).1⟩
              · intro a ha b hb n hn
                rcases houtLE' a ha with ⟨m, hm, hma⟩
                exact ⟨m, hm.trans ((hflD b hb).2 n hn), hma⟩
          rcases A with _ | ⟨a, A2⟩
          · rw [List.nil_append] at hqAB
            have hcB : DistIs g s c (k + 1) := by
              refine hB c ?_
              rw [← hqAB]
              exact List.mem_cons_self _ _
            have hrestB : ∀ x ∈ rest, DistIs g s x (k + 1) := by
              intro x hx
              refine hB x ?_
              rw [← hqAB]
              exact List.mem_cons_of_mem _ hx
            have hL4' : ∀ v, distLE g s v (k + 1) → v ∈ visited := by
              rintro v ⟨m, hm, hsN⟩
              by_cases hm' : m ≤ k
              · exact hL4 v ⟨m, hm', hsN⟩
              · have hmeq : m = k + 1 := by omega
                subst hmeq
                rcases stepN_last hsN with ⟨u, hu, hstepuv⟩
                have huvis : u ∈ visited := hL4 u ⟨k, le_refl _, hu⟩
                have hunq : u ∉ c :: rest := by
                  intro hmemu
                  have hub : DistIs g s u (k + 1) := by
                    refine hB u ?_
                    rw [← hqAB]
                    exact hmemu
                  have := hub.2 k hu
                  omega
                exact hcl u huvis hunq v hstepuv
            refine hstep (k + 1) rest [] (List.append_nil rest).symm hcB
              hrestB ?_ hL4' ?_
            · intro b hb
              cases hb
            · intro x hx
              exact distLE_mono (houtLE x hx) (by omega)
          · rw [List.cons_append] at hqAB
            injection hqAB with h1 h2
            refine hstep k A2 B h2 ?_
              (fun x hx => hA x (List.mem_cons_of_mem _ hx)) hB hL4 houtLE
            rw [h1]
            exact hA a (List.mem_cons_self _ _)

theorem bfs_sorted {g : VersatileDigraph K} (hwf : WF g) {s : K}
    (hs : s ∈ dictKeys g.nodes) :
    List.Pairwise (LevelLE g s) (bfs g s) := by
  have hout : bfs g s = bfsLoop g (traverseFuel g) [s] [s] [] := by
    unfold bfs
    rw [if_pos hs]
  rw [hout]
  refine bfsLoop_sorted hwf s (traverseFuel g) [s] [s] [] 0 [s] []
    (phi_start_pair_lt hwf hs) (List.append_nil [s]).symm ?_ ?_ ?_
    (fun x hx => hx) ?_ ?_ List.Pairwise.nil
  · intro a ha
    rw [List.mem_singleton] at ha
    subst ha
    exact ⟨rfl, fun m _ => Nat.zero_le m⟩
  · intro b hb
    cases hb
  · rintro v ⟨m, hm, hsN⟩
    have hm0 : m = 0 := Nat.le_zero.1 hm
    subst hm0
    rw [List.mem_singleton]
    exact (show s = v from hsN).symm
  · intro v hv hvq
    exact absurd hv hvq
  · intro x hx
    cases hx

/-- C7: for every API-built graph and start node `s` present in it, `bfs(s)`
yields nodes in non-decreasing shortest-path distance from `s`: whenever `a`
is yielded before `b`, every walk from `s` to `b` is at least as long as
some walk from `s` to `a` (`LevelLE`), so all nodes at distance `d` appear
before any node at distance `d + 1`.  That each node is yielded at the
moment it is discovered and enqueued — not when it is later dequeued — is
definitional in this embedding: `bfsVisit_eq` shows the inner loop appends
each fresh successor to the yielded sequence and to the queue in the very
same step. -/
theorem bfs_yields_in_level_order (ops : List (Op K)) (s : K)
    (hs : s ∈ dictKeys (buildGraph ops).nodes) :
    List.Pairwise (LevelLE (buildGraph ops) s) (bfs (buildGraph ops) s) :=
  bfs_sorted (wf_buildGraph ops) hs

/-- Witness for C7 at a concrete input: the path graph A→B, B→C, started
at A. -/
theorem bfs_yields_in_level_order_witness :
    ("A" ∈ dictKeys (buildGraph
        [Op.addEdge "A" "B" 0 0 "" 0, Op.addEdge "B" "C" 0 0 "" 0]).nodes) ∧
    List.Pairwise
      (LevelLE (buildGraph
        [Op.addEdge "A" "B" 0 0 "" 0, Op.addEdge "B" "C" 0 0 "" 0]) "A")
      (bfs (buildGraph
        [Op.addEdge "A" "B" 0 0 "" 0, Op.addEdge "B" "C" 0 0 "" 0]) "A") :=
  ⟨by decide,
    bfs_yields_in_level_order
      [Op.addEdge "A" "B" 0 0 "" 0, Op.addEdge "B" "C" 0 0 "" 0] "A"
      (by decide)⟩

end StudentCode
